import Mathlib

/-
  Verification of the static-site generator in website-generator/main.go.

  Strings are embedded as lists of characters.  The two regular expressions of
  fixRelativeLinks are embedded as explicit matchers with Go regexp semantics
  (leftmost match, greedy quantifiers, non-overlapping replacement):

    regex A:  href="\.\./(README\.md|exercises/([^"]+)\.md)"
              replaced through a callback that first tests
              strings.Contains(match, "README.md") and otherwise extracts the
              submatch of  exercises/([^"]+)\.md  from the matched text;
    regex B:  href="([0-9]{2}-[^"]+)\.md"   replaced by  href="$1.html".

  ReplaceAllString(Func) is embedded as a left-to-right scan that at each
  position either rewrites the leftmost match starting there and resumes after
  it, or copies one character.
-/

abbrev Str := List Char

def toL (s : String) : Str := s.toList

/-- Remove the last n characters, as Go slicing m[:len(m)-n] does. -/
def dropTail (n : Nat) (l : Str) : Str := l.take (l.length - n)

/-- Does the second list start with the first one?  (Go strings.HasPrefix.) -/
def hasPre : Str → Str → Bool
  | [], _ => true
  | _ :: _, [] => false
  | p :: ps, c :: cs => if p = c then hasPre ps cs else false

/-- Substring containment, Go strings.Contains. -/
def containsSub (pat : Str) : Str → Bool
  | [] => hasPre pat []
  | c :: cs => hasPre pat (c :: cs) || containsSub pat cs

/-- Split a list at its first double-quote character: the quote-free part
before it and the remainder after it; none when there is no quote.  This is
how the regexes delimit the character class of a quoted attribute value,
since a greedy run of the class stops at the first quote. -/
def takeToQuote : Str → Option (Str × Str)
  | [] => none
  | c :: cs =>
    if c = '"' then some ([], cs)
    else
      match takeToQuote cs with
      | some (v, t) => some (c :: v, t)
      | none => none

/-- Does the second list end with the first one?  (Go strings.HasSuffix.) -/
def endsWith (suf s : Str) : Bool := hasPre suf.reverse s.reverse

/-- Greedy capture of the regex fragment  ([^"]+)\.md  anchored at the start
of the given text: the longest nonempty quote-free run that is immediately
followed by the three characters  .md . -/
def greedyMd : Str → Option Str
  | [] => none
  | c :: r =>
    if c = '"' then none
    else
      match greedyMd r with
      | some cap => some (c :: cap)
      | none => if hasPre (toL ".md") r then some [c] else none

/-- Leftmost match of the inner regexp  exercises/([^"]+)\.md  used by the
replacement callback (re2.FindStringSubmatch): the capture of the first
position where the whole pattern matches. -/
def re2capA : Str → Option Str
  | [] => none
  | c :: r =>
    if hasPre (toL "exercises/") (c :: r) then
      match greedyMd ((c :: r).drop 10) with
      | some cap => some cap
      | none => re2capA r
    else re2capA r

/-- The replacement callback passed to ReplaceAllStringFunc for regex A. -/
def replFuncA (m : Str) : Str :=
  if containsSub (toL "README.md") m then toL "href=\"index.html\""
  else
    match re2capA m with
    | some cap => toL "href=\"" ++ cap ++ toL ".html\""
    | none => m

/-- Leftmost-anchored matcher for regex A,
href="\.\./(README\.md|exercises/([^"]+)\.md)" : if the text starting here
matches, return the callback's replacement and the text after the match.
The alternation tries the README branch first, exactly as a backtracking
engine would; the greedy  [^"]+  together with the closing quote forces the
value to run to the first quote and end in  .md . -/
def tryA (s : Str) : Option (Str × Str) :=
  if hasPre (toL "href=\"../") s then
    if hasPre (toL "README.md\"") (s.drop 9) then
      some (replFuncA (toL "href=\"../README.md\""), s.drop 19)
    else if hasPre (toL "exercises/") (s.drop 9) then
      match takeToQuote (s.drop 19) with
      | some (v, t) =>
        if endsWith (toL ".md") v = true ∧ 4 ≤ v.length then
          some (replFuncA (toL "href=\"../exercises/" ++ v ++ ['"']), t)
        else none
      | none => none
    else none
  else none

/-- Value test for regex B: a quoted value  [0-9]{2}-[^"]+\.md . -/
def okB (w : Str) : Bool :=
  match w with
  | a :: b :: c :: rest =>
    a.isDigit && b.isDigit && decide (c = '-') &&
      endsWith (toL ".md") rest && decide (4 ≤ rest.length)
  | _ => false

/-- Leftmost-anchored matcher for regex B,  href="([0-9]{2}-[^"]+)\.md" ,
with replacement  href="$1.html" . -/
def tryB (s : Str) : Option (Str × Str) :=
  if hasPre (toL "href=\"") s then
    match takeToQuote (s.drop 6) with
    | some (w, t) =>
      if okB w = true then
        some (toL "href=\"" ++ dropTail 3 w ++ toL ".html\"", t)
      else none
    | none => none
  else none

/-- Fueled scan implementing ReplaceAll: at each position rewrite the match
starting there and resume after it, otherwise copy one character. -/
def scanGo (tf : Str → Option (Str × Str)) : Nat → Str → Str
  | 0, s => s
  | _ + 1, [] => []
  | n + 1, c :: cs =>
    match tf (c :: cs) with
    | some (rep, rest) => rep ++ scanGo tf n rest
    | none => c :: scanGo tf n cs

def scanRepl (tf : Str → Option (Str × Str)) (s : Str) : Str :=
  scanGo tf s.length s

/-- fixRelativeLinks from main.go: regex A's ReplaceAllStringFunc followed by
regex B's ReplaceAllString. -/
def fixRelativeLinks (html : Str) : Str :=
  scanRepl tryB (scanRepl tryA html)

/-! ### Basic facts about the string helpers -/

/-- Quote-freeness: the property of a run of the character class  [^"]  . -/
def QF (l : Str) : Prop := ∀ c ∈ l, c ≠ '"'

instance (l : Str) : Decidable (QF l) := by unfold QF; infer_instance

/-! ### Quote-segment view of a string

A string is the interleaving of its quote-free segments with double quotes.
Both regexes match only text of the form  href=" value "  where the value is
a full inter-quote segment, so ReplaceAll is analysed through this view. -/

def splitQ : Str → List Str
  | [] => [[]]
  | c :: r =>
    if c = '"' then [] :: splitQ r
    else (c :: (splitQ r).headD []) :: (splitQ r).tail

def joinQ : List Str → Str
  | [] => []
  | [u] => u
  | u :: v :: rest => u ++ '"' :: joinQ (v :: rest)

/-! ### Segment-level view of the two rewrite rules

Both regexes only match at a position whose next six characters are
href=" ; the quoted value is then forced (by the quote-free character class
and the closing quote of the pattern) to be exactly the following inter-quote
segment.  So a match of either regex is:  a segment ending in  href= , a
quote, a value segment accepted by the rule, and another quote. -/

def hrefKey : Str := toL "href="

def hrefQuote : Str := toL "href=\""

/-- Value test for regex A: either the overview reference  ../README.md  or a
sibling reference  ../exercises/<nonempty>.md . -/
def okA (v : Str) : Bool :=
  decide (v = toL "../README.md") ||
    (hasPre (toL "../exercises/") v && endsWith (toL ".md") (v.drop 13) &&
      decide (4 ≤ (v.drop 13).length))

/-- The value produced by regex A's callback for an accepted value. -/
def newValA (v : Str) : Str :=
  if containsSub (toL "README.md") (hrefQuote ++ v ++ ['"']) then toL "index.html"
  else dropTail 3 (v.drop 13) ++ toL ".html"

/-- The value produced by regex B's replacement template for an accepted value. -/
def newValB (v : Str) : Str := dropTail 3 v ++ toL ".html"

/-- ReplaceAll on the segment view: a match consumes the quote after a
segment ending in  href= , the following value segment, and the quote after
it (so the value must not be the final segment); scanning resumes at the
segment after the match. -/
def replSegs (ok : Str → Bool) (nv : Str → Str) : List Str → List Str
  | [] => []
  | [u] => [u]
  | u :: v :: rest =>
    if rest ≠ [] ∧ endsWith hrefKey u = true ∧ ok v = true then
      u :: nv v :: replSegs ok nv rest
    else
      u :: replSegs ok nv (v :: rest)

/-! ### Generic equivalence: the character scan equals the segment rewrite

Both matchers satisfy the same interface: a match is  href=" value "  with a
quote-free accepted value, rewritten to  href=" newvalue " .  Under that
interface the left-to-right scan is exactly the segment-level rewrite. -/

def MatchRule (tf : Str → Option (Str × Str)) (ok : Str → Bool) (nv : Str → Str) : Prop :=
  (∀ s pr, tf s = some pr → ∃ v t, QF v ∧ ok v = true ∧
      s = hrefQuote ++ (v ++ '"' :: t) ∧ pr = (hrefQuote ++ (nv v ++ ['"']), t)) ∧
  (∀ v t, QF v → ok v = true →
      tf (hrefQuote ++ (v ++ '"' :: t)) = some (hrefQuote ++ (nv v ++ ['"']), t)) ∧
  (∀ v t, QF v → ok v = false → tf (hrefQuote ++ (v ++ '"' :: t)) = none) ∧
  (∀ v, QF v → tf (hrefQuote ++ v) = none)

/-- No position in the segment list carries a match of the given rule. -/
def NoM (ok : Str → Bool) : List Str → Prop
  | [] => True
  | [_] => True
  | u :: v :: rest =>
    ¬(rest ≠ [] ∧ endsWith hrefKey u = true ∧ ok v = true) ∧ NoM ok (v :: rest)

/-! ### The generation pipeline of main.go

File reads are a partial map from paths to contents (os.ReadFile), file
creation is a predicate on paths (os.Create / os.WriteFile succeeding or
not), and the three external text producers (blackfriday.Run, execution of
the two fixed templates) are abstract total functions: the fixed template
constants parse, and executing them over this data only fails on write
errors, which the creation predicate models.  The cssTemplate constant is
declared outside main.go and is abstract here as well. -/

structure ExMeta where
  filename : Str
  title : Str
  emoji : Str
  description : Str
deriving DecidableEq

def dMeta : ExMeta := ⟨[], [], [], []⟩

structure Exercise where
  number : Nat
  title : Str
  emoji : Str
  description : Str
  filename : Str
  content : Str
  prevLink : Str
  nextLink : Str
deriving DecidableEq

structure GenCtx where
  fs : Str → Option Str
  conv : Str → Str
  canW : Str → Bool
  renderEx : Exercise → Str
  renderIdx : List Exercise → Str
  css : Str

/-- strings.TrimSuffix. -/
def trimSuffix (s suf : Str) : Str :=
  if endsWith suf s = true then dropTail suf.length s else s

/-- filepath.Join for the flat two-component joins the generator performs. -/
def joinPath (dir name : Str) : Str := dir ++ toL "/" ++ name

/-- The derived output filename: the source filename with .md replaced by
.html, as computed in generateExercisePage. -/
def outName (m : ExMeta) : Str := trimSuffix m.filename (toL ".md") ++ toL ".html"

def srcPath (exercisesDir : Str) (m : ExMeta) : Str := joinPath exercisesDir m.filename

def pagePath (outputDir : Str) (m : ExMeta) : Str := joinPath outputDir (outName m)

/-- markdownToHTML from main.go: the external conversion, then the link fix. -/
def markdownToHTML (conv : Str → Str) (content : Str) : Str :=
  fixRelativeLinks (conv content)

/-- The Exercise record built in generateExercisePage: the previous link is
the landing page for index 0 and otherwise the preceding descriptor's output
name; the next link is empty for the final index and otherwise the following
descriptor's output name. -/
def mkExercise (conv : Str → Str) (metas : List ExMeta) (meta : ExMeta)
    (index : Nat) (content : Str) : Exercise :=
  ⟨index, meta.title, meta.emoji, meta.description,
   trimSuffix meta.filename (toL ".md") ++ toL ".html",
   markdownToHTML conv content,
   if 0 < index then
     trimSuffix ((metas.getD (index - 1) dMeta).filename) (toL ".md") ++ toL ".html"
   else toL "index.html",
   if index < metas.length - 1 then
     trimSuffix ((metas.getD (index + 1) dMeta).filename) (toL ".md") ++ toL ".html"
   else []⟩

/-- generateExercisePage: read the markdown source (error names the source
path), build the Exercise, create and write the output file (error names the
output path).  The result carries the written (path, contents) pair. -/
def generateExercisePage (ctx : GenCtx) (exercisesDir outputDir : Str)
    (metas : List ExMeta) (meta : ExMeta) (index : Nat) :
    Except Str (Exercise × (Str × Str)) :=
  match ctx.fs (joinPath exercisesDir meta.filename) with
  | none => Except.error (joinPath exercisesDir meta.filename)
  | some content =>
    if ctx.canW (joinPath outputDir (mkExercise ctx.conv metas meta index content).filename)
        = true then
      Except.ok (mkExercise ctx.conv metas meta index content,
        (joinPath outputDir (mkExercise ctx.conv metas meta index content).filename,
         ctx.renderEx (mkExercise ctx.conv metas meta index content)))
    else Except.error
      (joinPath outputDir (mkExercise ctx.conv metas meta index content).filename)

/-- The page loop of main: process the descriptors at the given indices in
order, accumulating the exercises and the writes; stop at the first error,
which carries the failing resource and the writes made before it. -/
def runPages (ctx : GenCtx) (exercisesDir outputDir : Str) (metas : List ExMeta) :
    List Nat → Except (Str × List (Str × Str)) (List Exercise × List (Str × Str))
  | [] => Except.ok ([], [])
  | i :: is =>
    match generateExercisePage ctx exercisesDir outputDir metas (metas.getD i dMeta) i with
    | Except.error r => Except.error (r, [])
    | Except.ok (ex, w) =>
      match runPages ctx exercisesDir outputDir metas is with
      | Except.error (r, ws) => Except.error (r, w :: ws)
      | Except.ok (exs, ws) => Except.ok (ex :: exs, w :: ws)

structure RunOut where
  writes : List (Str × Str)
  failedAt : Option Str
deriving DecidableEq

/-- main: create the output directory, generate every exercise page in
descriptor order, then the index page, then the stylesheet; exit at the
first failure, reporting the failing resource; print the success summary
only when everything was written. -/
def runMain (ctx : GenCtx) (exercisesDir outputDir : Str) (mkdirOk : Bool)
    (metas : List ExMeta) : RunOut :=
  if mkdirOk = false then ⟨[], some outputDir⟩
  else
    match runPages ctx exercisesDir outputDir metas (List.range metas.length) with
    | Except.error (r, ws) => ⟨ws, some r⟩
    | Except.ok (exs, ws) =>
      if ctx.canW (joinPath outputDir (toL "index.html")) = true then
        if ctx.canW (joinPath outputDir (toL "style.css")) = true then
          ⟨ws ++ [(joinPath outputDir (toL "index.html"), ctx.renderIdx exs),
                  (joinPath outputDir (toL "style.css"), ctx.css)], none⟩
        else ⟨ws ++ [(joinPath outputDir (toL "index.html"), ctx.renderIdx exs)],
              some (joinPath outputDir (toL "style.css"))⟩
      else ⟨ws, some (joinPath outputDir (toL "index.html"))⟩

/-- A descriptor's page generation succeeds: its source is readable and its
output file can be created. -/
def pageOk (ctx : GenCtx) (exercisesDir outputDir : Str) (m : ExMeta) : Prop :=
  (ctx.fs (srcPath exercisesDir m)).isSome = true ∧
    ctx.canW (pagePath outputDir m) = true

/-! ### Characterizing a full run -/

instance (ctx : GenCtx) (d o : Str) (m : ExMeta) : Decidable (pageOk ctx d o m) := by
  unfold pageOk; infer_instance

/-! ### Concrete instances used to exercise the pipeline theorems -/

def cexCtx : GenCtx :=
  ⟨fun _ => some [], fun _ => [], fun _ => true, fun _ => [], fun _ => [], []⟩

def cexCtxMissing : GenCtx :=
  ⟨fun p => if p = toL "e/00-a.md" then some [] else none,
   fun _ => [], fun _ => true, fun _ => [], fun _ => [], []⟩

def cexMetas1 : List ExMeta := [⟨toL "00-a.md", [], [], []⟩]

def cexMetas2 : List ExMeta := [⟨toL "00-a.md", [], [], []⟩, ⟨toL "01-b.md", [], [], []⟩]

def cexMetas3 : List ExMeta :=
  [⟨toL "00-a.md", [], [], []⟩, ⟨toL "01-b.md", [], [], []⟩, ⟨toL "02-c.md", [], [], []⟩]

theorem QF_nil : QF [] := by intro c hc; cases hc

theorem QF_cons {c : Char} {l : Str} (hc : c ≠ '"') (hl : QF l) : QF (c :: l) := by
  intro d hd
  rcases List.mem_cons.mp hd with h | h
  · simpa [h] using hc
  · exact hl d h

theorem QF_of_cons {c : Char} {l : Str} (h : QF (c :: l)) : c ≠ '"' ∧ QF l :=
  ⟨h c (List.mem_cons_self c l), fun d hd => h d (List.mem_cons_of_mem c hd)⟩

theorem QF_append {a b : Str} : QF (a ++ b) ↔ QF a ∧ QF b := by
  constructor
  · intro h
    exact ⟨fun c hc => h c (List.mem_append.mpr (Or.inl hc)),
           fun c hc => h c (List.mem_append.mpr (Or.inr hc))⟩
  · rintro ⟨ha, hb⟩ c hc
    rcases List.mem_append.mp hc with h | h
    · exact ha c h
    · exact hb c h

theorem QF_take {l : Str} (h : QF l) (n : Nat) : QF (l.take n) :=
  fun c hc => h c (List.mem_of_mem_take hc)

theorem QF_drop {l : Str} (h : QF l) (n : Nat) : QF (l.drop n) :=
  fun c hc => h c (List.mem_of_mem_drop hc)

theorem hasPre_iff {p s : Str} : hasPre p s = true ↔ ∃ t, s = p ++ t := by
  induction p generalizing s with
  | nil => simp [hasPre]
  | cons a ps ih =>
    cases s with
    | nil => simp [hasPre]
    | cons c cs =>
      by_cases h : a = c
      · subst h; simp [hasPre, ih]
      · simp [hasPre, h, Ne.symm h]

theorem hasPre_self_append (p t : Str) : hasPre p (p ++ t) = true :=
  hasPre_iff.mpr ⟨t, rfl⟩

theorem hasPre_append_same (a p s : Str) : hasPre (a ++ p) (a ++ s) = hasPre p s := by
  induction a with
  | nil => rfl
  | cons c cs ih => simp [hasPre, ih]

theorem hasPre_head_ne {a c : Char} {p s : Str} (h : a ≠ c) :
    hasPre (a :: p) (c :: s) = false := by
  simp [hasPre, h]

theorem hasPre2_ne {a b c : Char} {p s : Str} (h : b ≠ c) :
    hasPre (a :: b :: p) (a :: c :: s) = false := by
  simp [hasPre, h]

theorem hasPre_append_cases {p a b : Str} (h : hasPre p (a ++ b) = true) :
    (hasPre p a = true ∧ p.length ≤ a.length) ∨
      ∃ p2, p = a ++ p2 ∧ hasPre p2 b = true := by
  induction a generalizing p with
  | nil => exact Or.inr ⟨p, rfl, h⟩
  | cons c as ih =>
    cases p with
    | nil => exact Or.inl ⟨rfl, Nat.zero_le _⟩
    | cons d ps =>
      simp only [List.cons_append, hasPre] at h
      by_cases hdc : d = c
      · subst hdc
        rw [if_pos rfl] at h
        rcases ih h with ⟨h1, h2⟩ | ⟨p2, hp2, hb⟩
        · exact Or.inl ⟨by simp [hasPre, h1], by simpa using Nat.succ_le_succ h2⟩
        · exact Or.inr ⟨p2, by simp [hp2], hb⟩
      · rw [if_neg hdc] at h; cases h

theorem mem_of_hasPre {p s : Str} (h : hasPre p s = true) {c : Char} (hc : c ∈ p) :
    c ∈ s := by
  rcases hasPre_iff.mp h with ⟨t, rfl⟩
  exact List.mem_append.mpr (Or.inl hc)

theorem endsWith_iff {suf s : Str} : endsWith suf s = true ↔ ∃ t, s = t ++ suf := by
  unfold endsWith
  rw [hasPre_iff]
  constructor
  · rintro ⟨t, ht⟩
    refine ⟨t.reverse, ?_⟩
    have := congrArg List.reverse ht
    simpa using this
  · rintro ⟨t, rfl⟩
    exact ⟨t.reverse, by simp⟩

theorem takeToQuote_some {x v t : Str} (h : takeToQuote x = some (v, t)) :
    QF v ∧ x = v ++ '"' :: t := by
  induction x generalizing v with
  | nil => simp [takeToQuote] at h
  | cons c cs ih =>
    by_cases hc : c = '"'
    · subst hc
      simp only [takeToQuote, if_pos rfl, Option.some.injEq, Prod.mk.injEq] at h
      obtain ⟨rfl, rfl⟩ := h
      exact ⟨QF_nil, rfl⟩
    · simp only [takeToQuote, if_neg hc] at h
      cases htq : takeToQuote cs with
      | none => rw [htq] at h; cases h
      | some p =>
        obtain ⟨v', t'⟩ := p
        rw [htq] at h
        simp only [Option.some.injEq, Prod.mk.injEq] at h
        obtain ⟨h1, h2⟩ := h
        subst h2
        obtain ⟨hqf, hx⟩ := ih htq
        refine ⟨?_, ?_⟩
        · rw [← h1]; exact QF_cons hc hqf
        · rw [← h1, hx]; rfl

theorem takeToQuote_of_qf {v : Str} (h : QF v) (t : Str) :
    takeToQuote (v ++ '"' :: t) = some (v, t) := by
  induction v with
  | nil => simp [takeToQuote]
  | cons c cs ih =>
    obtain ⟨hc, hcs⟩ := QF_of_cons h
    simp only [List.cons_append, takeToQuote, List.append_eq, if_neg hc, ih hcs]

theorem takeToQuote_none_of_qf {x : Str} (h : QF x) : takeToQuote x = none := by
  induction x with
  | nil => rfl
  | cons c cs ih =>
    obtain ⟨hc, hcs⟩ := QF_of_cons h
    simp only [takeToQuote, if_neg hc, ih hcs]

theorem uniqQuote {a b x y : Str} (qa : QF a) (qb : QF b)
    (h : a ++ '"' :: x = b ++ '"' :: y) : a = b ∧ x = y := by
  induction a generalizing b with
  | nil =>
    cases b with
    | nil => simpa using h
    | cons d bs =>
      exfalso
      simp only [List.nil_append, List.cons_append, List.cons.injEq] at h
      exact (QF_of_cons qb).1 h.1.symm
  | cons c as ih =>
    cases b with
    | nil =>
      exfalso
      simp only [List.cons_append, List.nil_append, List.cons.injEq] at h
      exact (QF_of_cons qa).1 h.1
    | cons d bs =>
      simp only [List.cons_append, List.cons.injEq] at h
      obtain ⟨h1, h2⟩ := h
      obtain ⟨ha, hx⟩ := ih (QF_of_cons qa).2 (QF_of_cons qb).2 h2
      exact ⟨by rw [h1, ha], hx⟩

theorem splitQ_shape (s : Str) : ∃ v rest, splitQ s = v :: rest := by
  induction s with
  | nil => exact ⟨[], [], rfl⟩
  | cons c r ih =>
    by_cases hc : c = '"'
    · exact ⟨[], splitQ r, by simp [splitQ, hc]⟩
    · obtain ⟨v, rest, hv⟩ := ih
      exact ⟨c :: v, rest, by simp [splitQ, hc, hv]⟩

theorem splitQ_qf {s : Str} (h : QF s) : splitQ s = [s] := by
  induction s with
  | nil => rfl
  | cons c r ih =>
    obtain ⟨hc, hr⟩ := QF_of_cons h
    simp [splitQ, hc, ih hr]

theorem splitQ_append_qf {u : Str} (h : QF u) (t : Str) :
    splitQ (u ++ '"' :: t) = u :: splitQ t := by
  induction u with
  | nil => simp [splitQ]
  | cons c u' ih =>
    obtain ⟨hc, hu'⟩ := QF_of_cons h
    simp [splitQ, hc, ih hu']

theorem allQF_splitQ (s : Str) : ∀ seg ∈ splitQ s, QF seg := by
  induction s with
  | nil =>
    intro seg hseg
    simp only [splitQ] at hseg
    rcases List.mem_singleton.mp hseg with rfl
    exact QF_nil
  | cons c r ih =>
    intro seg hseg
    by_cases hc : c = '"'
    · simp only [splitQ, if_pos hc] at hseg
      rcases List.mem_cons.mp hseg with rfl | h
      · exact QF_nil
      · exact ih seg h
    · obtain ⟨v, rest, hv⟩ := splitQ_shape r
      simp only [splitQ, if_neg hc, hv, List.headD, List.tail] at hseg
      rcases List.mem_cons.mp hseg with rfl | h
      · exact QF_cons hc (ih v (hv ▸ List.mem_cons_self v rest))
      · exact ih seg (hv ▸ List.mem_cons_of_mem v h)

theorem joinQ_splitQ (s : Str) : joinQ (splitQ s) = s := by
  induction s with
  | nil => rfl
  | cons c r ih =>
    obtain ⟨v, rest, hv⟩ := splitQ_shape r
    by_cases hc : c = '"'
    · subst hc
      simp only [splitQ, if_pos rfl, hv, joinQ]
      rw [← hv, ih]
      rfl
    · simp only [splitQ, if_neg hc, hv, List.headD, List.tail]
      cases rest with
      | nil =>
        simp only [joinQ]
        rw [hv] at ih
        simp only [joinQ] at ih
        rw [ih]
      | cons w ws =>
        simp only [joinQ]
        rw [hv] at ih
        simp only [joinQ] at ih
        simp [ih]

theorem splitQ_joinQ {L : List Str} (h : ∀ seg ∈ L, QF seg) (hne : L ≠ []) :
    splitQ (joinQ L) = L := by
  induction L with
  | nil => exact absurd rfl hne
  | cons u rest ih =>
    cases rest with
    | nil =>
      simp only [joinQ]
      exact splitQ_qf (h u (List.mem_cons_self u []))
    | cons v rs =>
      simp only [joinQ]
      rw [splitQ_append_qf (h u (List.mem_cons_self u _))]
      rw [ih (fun seg hseg => h seg (List.mem_cons_of_mem u hseg)) (by simp)]

theorem quote_decomp (s : Str) : QF s ∨ ∃ u t, QF u ∧ s = u ++ '"' :: t := by
  induction s with
  | nil => exact Or.inl QF_nil
  | cons c cs ih =>
    by_cases hc : c = '"'
    · subst hc
      exact Or.inr ⟨[], cs, QF_nil, rfl⟩
    · rcases ih with h | ⟨u, t, hu, ht⟩
      · exact Or.inl (QF_cons hc h)
      · exact Or.inr ⟨c :: u, t, QF_cons hc hu, by rw [ht]; rfl⟩

/-! ### Equations for the fueled ReplaceAll scan -/

theorem scanGo_nil (tf : Str → Option (Str × Str)) (n : Nat) : scanGo tf n [] = [] := by
  cases n <;> rfl

theorem scanGo_congr {tf : Str → Option (Str × Str)}
    (hcon : ∀ s rep rest, tf s = some (rep, rest) → rest.length < s.length) :
    ∀ n m (s : Str), s.length ≤ n → s.length ≤ m → scanGo tf n s = scanGo tf m s := by
  intro n
  induction n with
  | zero =>
    intro m s hn _
    have : s = [] := List.eq_nil_of_length_eq_zero (Nat.le_zero.mp hn)
    subst this
    rw [scanGo_nil, scanGo_nil]
  | succ n ih =>
    intro m s hn hm
    cases s with
    | nil => rw [scanGo_nil, scanGo_nil]
    | cons c cs =>
      cases m with
      | zero => simp at hm
      | succ m' =>
        simp only [scanGo]
        cases htf : tf (c :: cs) with
        | some pr =>
          obtain ⟨rep, rest⟩ := pr
          have hlt := hcon _ _ _ htf
          simp only [List.length_cons] at hlt hn hm
          show rep ++ scanGo tf n rest = rep ++ scanGo tf m' rest
          congr 1
          exact ih m' rest (by omega) (by omega)
        | none =>
          simp only [List.length_cons] at hn hm
          show c :: scanGo tf n cs = c :: scanGo tf m' cs
          congr 1
          exact ih m' cs (by omega) (by omega)

theorem scanRepl_match {tf : Str → Option (Str × Str)}
    (hcon : ∀ s rep rest, tf s = some (rep, rest) → rest.length < s.length)
    {s rep rest : Str} (h : tf s = some (rep, rest)) :
    scanRepl tf s = rep ++ scanRepl tf rest := by
  cases s with
  | nil =>
    have := hcon _ _ _ h
    simp at this
  | cons c cs =>
    show scanGo tf ((c :: cs).length) (c :: cs) = _
    simp only [List.length_cons, scanGo]
    rw [h]
    show rep ++ scanGo tf cs.length rest = rep ++ scanRepl tf rest
    congr 1
    have hlt := hcon _ _ _ h
    simp only [List.length_cons] at hlt
    exact scanGo_congr hcon cs.length rest.length rest (by omega) (le_refl _)

theorem scanRepl_copy {tf : Str → Option (Str × Str)} {c : Char} {cs : Str}
    (h : tf (c :: cs) = none) :
    scanRepl tf (c :: cs) = c :: scanRepl tf cs := by
  show scanGo tf ((c :: cs).length) (c :: cs) = _
  simp only [List.length_cons, scanGo]
  rw [h]
  rfl

theorem QF_hrefKey : QF hrefKey := by decide

theorem hrefQuote_eq : hrefQuote = hrefKey ++ ['"'] := by decide

theorem dropTail_append (x m : Str) : dropTail m.length (x ++ m) = x := by
  rw [dropTail, List.length_append, Nat.add_sub_cancel, List.take_left]

theorem okA_ends_md {v : Str} (h : okA v = true) : endsWith (toL ".md") v = true := by
  unfold okA at h
  rcases Bool.or_eq_true_iff.mp h with h1 | h2
  · have : v = toL "../README.md" := of_decide_eq_true h1
    subst this; decide
  · have hp := Bool.and_eq_true_iff.mp (Bool.and_eq_true_iff.mp h2).1
    obtain ⟨t, ht⟩ := hasPre_iff.mp hp.1
    have hdrop : v.drop 13 = t := by
      rw [ht, show (13 : Nat) = (toL "../exercises/").length from by decide, List.drop_left]
    rw [hdrop] at hp
    obtain ⟨t2, ht2⟩ := endsWith_iff.mp hp.2
    refine endsWith_iff.mpr ⟨toL "../exercises/" ++ t2, ?_⟩
    rw [ht, ht2, List.append_assoc]

theorem okB_ends_md {v : Str} (h : okB v = true) : endsWith (toL ".md") v = true := by
  match v, h with
  | a :: b :: c :: rest, h =>
    unfold okB at h
    have h4 := (Bool.and_eq_true_iff.mp (Bool.and_eq_true_iff.mp h).1).2
    obtain ⟨t, ht⟩ := endsWith_iff.mp h4
    exact endsWith_iff.mpr ⟨a :: b :: c :: t, by rw [ht]; rfl⟩

theorem rev_append_html (x : Str) :
    (x ++ toL ".html").reverse = 'l' :: 'm' :: 't' :: 'h' :: '.' :: x.reverse := by
  rw [List.reverse_append]
  rfl

theorem not_md_html (x : Str) : endsWith (toL ".md") (x ++ toL ".html") = false := by
  unfold endsWith
  rw [rev_append_html, show (toL ".md").reverse = 'd' :: 'm' :: '.' :: [] from by decide]
  exact hasPre_head_ne (by decide)

theorem not_href_html (x : Str) : endsWith hrefKey (x ++ toL ".html") = false := by
  unfold endsWith
  rw [rev_append_html, show hrefKey.reverse = '=' :: 'f' :: 'e' :: 'r' :: 'h' :: [] from by decide]
  exact hasPre_head_ne (by decide)

theorem okA_html (x : Str) : okA (x ++ toL ".html") = false := by
  cases h : okA (x ++ toL ".html") with
  | false => rfl
  | true =>
    have h1 := okA_ends_md h
    rw [not_md_html] at h1
    exact absurd h1 (by decide)

theorem okB_html (x : Str) : okB (x ++ toL ".html") = false := by
  cases h : okB (x ++ toL ".html") with
  | false => rfl
  | true =>
    have h1 := okB_ends_md h
    rw [not_md_html] at h1
    exact absurd h1 (by decide)

theorem newValA_form (v : Str) : ∃ x, newValA v = x ++ toL ".html" := by
  unfold newValA
  split
  · exact ⟨toL "index", by decide⟩
  · exact ⟨dropTail 3 (v.drop 13), rfl⟩

theorem newValB_form (v : Str) : ∃ x, newValB v = x ++ toL ".html" :=
  ⟨dropTail 3 v, rfl⟩

theorem QF_newValA {v : Str} (h : QF v) : QF (newValA v) := by
  unfold newValA
  split
  · decide
  · exact QF_append.mpr ⟨QF_take (QF_drop h 13) _, by decide⟩

theorem QF_newValB {v : Str} (h : QF v) : QF (newValB v) :=
  QF_append.mpr ⟨QF_take h _, by decide⟩

/-! ### Concrete character forms of the pattern literals -/

theorem toLexercises : toL "exercises/" =
    'e' :: 'x' :: 'e' :: 'r' :: 'c' :: 'i' :: 's' :: 'e' :: 's' :: '/' :: [] := by decide

theorem toLhrefSlash : toL "href=\"../" =
    'h' :: 'r' :: 'e' :: 'f' :: '=' :: '"' :: '.' :: '.' :: '/' :: [] := by decide

theorem toLreadmeQ : toL "README.md\"" =
    'R' :: 'E' :: 'A' :: 'D' :: 'M' :: 'E' :: '.' :: 'm' :: 'd' :: '"' :: [] := by decide

theorem toLreadmePath : toL "../README.md" =
    '.' :: '.' :: '/' :: 'R' :: 'E' :: 'A' :: 'D' :: 'M' :: 'E' :: '.' :: 'm' :: 'd' :: [] := by decide

theorem toLexPath : toL "../exercises/" =
    '.' :: '.' :: '/' :: 'e' :: 'x' :: 'e' :: 'r' :: 'c' :: 'i' :: 's' :: 'e' :: 's' :: '/' :: [] := by decide

theorem toLhrefEx : toL "href=\"../exercises/" =
    'h' :: 'r' :: 'e' :: 'f' :: '=' :: '"' :: '.' :: '.' :: '/' ::
      'e' :: 'x' :: 'e' :: 'r' :: 'c' :: 'i' :: 's' :: 'e' :: 's' :: '/' :: [] := by decide

theorem hrefQuoteL : hrefQuote = 'h' :: 'r' :: 'e' :: 'f' :: '=' :: '"' :: [] := by decide

theorem hrefKeyL : hrefKey = 'h' :: 'r' :: 'e' :: 'f' :: '=' :: [] := by decide

/-! ### Computing the inner submatch extraction of regex A's callback -/

theorem greedyMd_cons (c : Char) (r : Str) :
    greedyMd (c :: r) =
      if c = '"' then none
      else
        match greedyMd r with
        | some cap => some (c :: cap)
        | none => if hasPre (toL ".md") r then some [c] else none := rfl

theorem greedyMd_exact :
    ∀ X : Str, X ≠ [] → QF X → greedyMd (X ++ toL ".md" ++ ['"']) = some X := by
  intro X
  induction X with
  | nil => intro h _; exact absurd rfl h
  | cons c X' ih =>
    intro _ hqf
    obtain ⟨hc, hX'⟩ := QF_of_cons hqf
    by_cases hX'nil : X' = []
    · subst hX'nil
      have e : (([c] : Str) ++ toL ".md" ++ ['"']) = c :: '.' :: 'm' :: 'd' :: '"' :: [] := by
        rw [show toL ".md" = '.' :: 'm' :: 'd' :: [] from by decide]; rfl
      rw [e, greedyMd_cons, if_neg hc,
        show greedyMd ('.' :: 'm' :: 'd' :: '"' :: []) = none from by decide]
      rw [if_pos (by decide)]
    · have e : ((c :: X') ++ toL ".md" ++ ['"']) = c :: (X' ++ toL ".md" ++ ['"']) := by simp
      rw [e, greedyMd_cons, if_neg hc, ih hX'nil hX']

theorem re2capA_cons (c : Char) (r : Str) :
    re2capA (c :: r) =
      if hasPre (toL "exercises/") (c :: r) then
        match greedyMd ((c :: r).drop 10) with
        | some cap => some cap
        | none => re2capA r
      else re2capA r := rfl

theorem re2capA_skip {c : Char} {r : Str}
    (h : hasPre (toL "exercises/") (c :: r) = false) :
    re2capA (c :: r) = re2capA r := by
  rw [re2capA_cons, if_neg (by simp [h])]

theorem re2capA_match {v0 : Str} (hqf : QF v0) (hend : endsWith (toL ".md") v0 = true)
    (hlen : 4 ≤ v0.length) :
    re2capA (toL "href=\"../exercises/" ++ v0 ++ ['"']) = some (dropTail 3 v0) := by
  obtain ⟨X, hX⟩ := endsWith_iff.mp hend
  have hXne : X ≠ [] := by
    have h3 : (toL ".md").length = 3 := by decide
    have : 1 ≤ X.length := by
      rw [hX, List.length_append, h3] at hlen; omega
    exact List.ne_nil_of_length_pos (by omega)
  have hXqf : QF X := by
    rw [hX] at hqf; exact (QF_append.mp hqf).1
  have hdt : dropTail 3 v0 = X := by
    rw [hX, show (3 : Nat) = (toL ".md").length from by decide, dropTail_append]
  rw [hdt, toLhrefEx]
  simp only [List.cons_append, List.nil_append]
  rw [re2capA_skip (by rw [toLexercises]; exact hasPre_head_ne (by decide))]
  rw [re2capA_skip (by rw [toLexercises]; exact hasPre_head_ne (by decide))]
  rw [re2capA_skip (by rw [toLexercises]; exact hasPre2_ne (by decide))]
  rw [re2capA_skip (by rw [toLexercises]; exact hasPre_head_ne (by decide))]
  rw [re2capA_skip (by rw [toLexercises]; exact hasPre_head_ne (by decide))]
  rw [re2capA_skip (by rw [toLexercises]; exact hasPre_head_ne (by decide))]
  rw [re2capA_skip (by rw [toLexercises]; exact hasPre_head_ne (by decide))]
  rw [re2capA_skip (by rw [toLexercises]; exact hasPre_head_ne (by decide))]
  rw [re2capA_skip (by rw [toLexercises]; exact hasPre_head_ne (by decide))]
  rw [re2capA_cons,
    if_pos (by rw [toLexercises]
               exact hasPre_self_append ('e' :: 'x' :: 'e' :: 'r' :: 'c' :: 'i' :: 's' :: 'e' :: 's' :: '/' :: []) (v0 ++ ['"']))]
  have hdrop10 :
      ('e' :: 'x' :: 'e' :: 'r' :: 'c' :: 'i' :: 's' :: 'e' :: 's' :: '/' :: (v0 ++ ['"']) : Str).drop 10 =
        v0 ++ ['"'] := rfl
  rw [hdrop10, show (v0 ++ ['"'] : Str) = X ++ toL ".md" ++ ['"'] from by rw [hX],
    greedyMd_exact X hXne hXqf]

/-! ### The callback value for an accepted exercises/ reference -/

theorem prefix_concat_hrefEx :
    hrefQuote ++ toL "../exercises/" = toL "href=\"../exercises/" := by decide

theorem replFuncA_exVal {v0 : Str} (hqf : QF v0) (hend : endsWith (toL ".md") v0 = true)
    (hlen : 4 ≤ v0.length) :
    replFuncA (toL "href=\"../exercises/" ++ v0 ++ ['"']) =
      hrefQuote ++ (newValA (toL "../exercises/" ++ v0) ++ ['"']) := by
  have harg : hrefQuote ++ (toL "../exercises/" ++ v0) ++ ['"'] =
      toL "href=\"../exercises/" ++ v0 ++ ['"'] := by
    rw [← List.append_assoc, prefix_concat_hrefEx]
  have hdrop13 : (toL "../exercises/" ++ v0).drop 13 = v0 := by
    rw [show (13 : Nat) = (toL "../exercises/").length from by decide, List.drop_left]
  unfold replFuncA newValA
  rw [harg, hdrop13]
  by_cases hcont :
      containsSub (toL "README.md") (toL "href=\"../exercises/" ++ v0 ++ ['"']) = true
  · rw [if_pos hcont, if_pos hcont]
    decide
  · rw [if_neg hcont, if_neg hcont, re2capA_match hqf hend hlen]
    show toL "href=\"" ++ dropTail 3 v0 ++ toL ".html\"" =
      hrefQuote ++ (dropTail 3 v0 ++ toL ".html" ++ ['"'])
    rw [show toL ".html\"" = toL ".html" ++ ['"'] from by decide]
    show hrefQuote ++ dropTail 3 v0 ++ (toL ".html" ++ ['"']) = _
    simp [List.append_assoc]

/-! ### Shape of a regex A match -/

theorem tryA_shape {s : Str} {pr : Str × Str} (h : tryA s = some pr) :
    ∃ v t, QF v ∧ okA v = true ∧ s = hrefQuote ++ (v ++ '"' :: t) ∧
      pr = (hrefQuote ++ (newValA v ++ ['"']), t) := by
  unfold tryA at h
  by_cases h1 : hasPre (toL "href=\"../") s = true
  case neg => rw [if_neg (by simp [h1])] at h; cases h
  rw [if_pos h1] at h
  obtain ⟨r, hr⟩ := hasPre_iff.mp h1
  have hdrop9 : s.drop 9 = r := by
    rw [hr, show (9 : Nat) = (toL "href=\"../").length from by decide, List.drop_left]
  by_cases h2 : hasPre (toL "README.md\"") (s.drop 9) = true
  · rw [if_pos h2] at h
    obtain ⟨t, ht⟩ := hasPre_iff.mp h2
    have hs : s = (toL "href=\"../" ++ toL "README.md\"") ++ t := by
      rw [hr, ← hdrop9, ht, List.append_assoc]
    have hdrop19 : s.drop 19 = t := by
      rw [hs, show (19 : Nat) = (toL "href=\"../" ++ toL "README.md\"").length from by decide,
        List.drop_left]
    refine ⟨toL "../README.md", t, by decide, by decide, ?_, ?_⟩
    · rw [hs, toLhrefSlash, toLreadmeQ, hrefQuoteL, toLreadmePath]
      simp
    · injection h with hpr
      rw [← hpr, hdrop19,
        show replFuncA (toL "href=\"../README.md\"") =
          hrefQuote ++ (newValA (toL "../README.md") ++ ['"']) from by decide]
  · rw [if_neg (by simp [h2])] at h
    by_cases h3 : hasPre (toL "exercises/") (s.drop 9) = true
    case neg => rw [if_neg (by simp [h3])] at h; cases h
    rw [if_pos h3] at h
    obtain ⟨r2, hr2⟩ := hasPre_iff.mp h3
    have hs : s = toL "href=\"../exercises/" ++ r2 := by
      rw [hr, ← hdrop9, hr2,
        show toL "href=\"../" ++ (toL "exercises/" ++ r2) =
          (toL "href=\"../" ++ toL "exercises/") ++ r2 from by rw [List.append_assoc],
        show toL "href=\"../" ++ toL "exercises/" = toL "href=\"../exercises/" from by decide]
    have hdrop19 : s.drop 19 = r2 := by
      rw [hs, show (19 : Nat) = (toL "href=\"../exercises/").length from by decide,
        List.drop_left]
    rw [hdrop19] at h
    cases htq : takeToQuote r2 with
    | none => rw [htq] at h; cases h
    | some p =>
      obtain ⟨v0, t⟩ := p
      rw [htq] at h
      have h' : (if endsWith (toL ".md") v0 = true ∧ 4 ≤ v0.length then
          some (replFuncA (toL "href=\"../exercises/" ++ v0 ++ ['"']), t)
        else none) = some pr := h
      obtain ⟨hv0qf, hr2eq⟩ := takeToQuote_some htq
      by_cases h4 : endsWith (toL ".md") v0 = true ∧ 4 ≤ v0.length
      case neg => rw [if_neg h4] at h'; cases h'
      rw [if_pos h4] at h'
      have hdrop13 : (toL "../exercises/" ++ v0).drop 13 = v0 := by
        rw [show (13 : Nat) = (toL "../exercises/").length from by decide, List.drop_left]
      refine ⟨toL "../exercises/" ++ v0, t, QF_append.mpr ⟨by decide, hv0qf⟩, ?_, ?_, ?_⟩
      · unfold okA
        rw [hasPre_self_append, hdrop13, h4.1]
        simp [h4.2]
      · rw [hs, hr2eq, hrefQuoteL, toLhrefEx, toLexPath]
        simp
      · injection h' with hpr
        rw [← hpr, replFuncA_exVal hv0qf h4.1 h4.2]

theorem hasPre_quote_head {p2 : Str} {d : Char} {t : Str}
    (h : hasPre (d :: p2) ('"' :: t) = true) : d = '"' := by
  by_contra hne
  rw [hasPre_head_ne hne] at h
  exact absurd h (by decide)

/-! ### Regex A matches exactly the accepted values -/

theorem tryA_conv {v : Str} (t : Str) (hqf : QF v) (hok : okA v = true) :
    tryA (hrefQuote ++ (v ++ '"' :: t)) =
      some (hrefQuote ++ (newValA v ++ ['"']), t) := by
  unfold okA at hok
  rcases Bool.or_eq_true_iff.mp hok with hb1 | hb2
  · have hv : v = toL "../README.md" := of_decide_eq_true hb1
    subst hv
    have hs9 : hrefQuote ++ (toL "../README.md" ++ '"' :: t) =
        toL "href=\"../" ++ (toL "README.md\"" ++ t) := by
      rw [hrefQuoteL, toLreadmePath, toLhrefSlash, toLreadmeQ]; simp
    rw [hs9]
    unfold tryA
    rw [if_pos (hasPre_self_append _ _)]
    have hdrop9 : (toL "href=\"../" ++ (toL "README.md\"" ++ t)).drop 9 =
        toL "README.md\"" ++ t := by
      rw [show (9 : Nat) = (toL "href=\"../").length from by decide, List.drop_left]
    rw [hdrop9, if_pos (hasPre_self_append _ _)]
    have hdrop19 : (toL "href=\"../" ++ (toL "README.md\"" ++ t)).drop 19 = t := by
      rw [show toL "href=\"../" ++ (toL "README.md\"" ++ t) =
            (toL "href=\"../" ++ toL "README.md\"") ++ t from by rw [List.append_assoc],
        show (19 : Nat) = (toL "href=\"../" ++ toL "README.md\"").length from by decide,
        List.drop_left]
    rw [hdrop19,
      show replFuncA (toL "href=\"../README.md\"") =
        hrefQuote ++ (newValA (toL "../README.md") ++ ['"']) from by decide]
  · have hp := Bool.and_eq_true_iff.mp hb2
    have hp1 := Bool.and_eq_true_iff.mp hp.1
    obtain ⟨v0, hv⟩ := hasPre_iff.mp hp1.1
    have hdrop13 : v.drop 13 = v0 := by
      rw [hv, show (13 : Nat) = (toL "../exercises/").length from by decide, List.drop_left]
    have hv0qf : QF v0 := by rw [hv] at hqf; exact (QF_append.mp hqf).2
    have hend : endsWith (toL ".md") v0 = true := hdrop13 ▸ hp1.2
    have hlen : 4 ≤ v0.length := hdrop13 ▸ of_decide_eq_true hp.2
    have hs : hrefQuote ++ (v ++ '"' :: t) =
        toL "href=\"../" ++ (toL "exercises/" ++ (v0 ++ '"' :: t)) := by
      rw [hv, hrefQuoteL, toLexPath, toLhrefSlash, toLexercises]; simp
    rw [hs]
    unfold tryA
    rw [if_pos (hasPre_self_append _ _)]
    have hdrop9 : (toL "href=\"../" ++ (toL "exercises/" ++ (v0 ++ '"' :: t))).drop 9 =
        toL "exercises/" ++ (v0 ++ '"' :: t) := by
      rw [show (9 : Nat) = (toL "href=\"../").length from by decide, List.drop_left]
    rw [hdrop9]
    rw [if_neg (by
      rw [toLreadmeQ, toLexercises]
      simp only [List.cons_append, List.nil_append]
      rw [hasPre_head_ne (by decide)]
      simp)]
    rw [if_pos (hasPre_self_append _ _)]
    have hdrop19 : (toL "href=\"../" ++ (toL "exercises/" ++ (v0 ++ '"' :: t))).drop 19 =
        v0 ++ '"' :: t := by
      rw [show toL "href=\"../" ++ (toL "exercises/" ++ (v0 ++ '"' :: t)) =
            (toL "href=\"../" ++ toL "exercises/") ++ (v0 ++ '"' :: t) from by
              rw [List.append_assoc],
        show (19 : Nat) = (toL "href=\"../" ++ toL "exercises/").length from by decide,
        List.drop_left]
    rw [hdrop19, takeToQuote_of_qf hv0qf]
    show (if endsWith (toL ".md") v0 = true ∧ 4 ≤ v0.length then
        some (replFuncA (toL "href=\"../exercises/" ++ v0 ++ ['"']), t)
      else none) = _
    rw [if_pos ⟨hend, hlen⟩, replFuncA_exVal hv0qf hend hlen, hv]

theorem tryA_fail2 {v : Str} (t : Str) (hqf : QF v) (hok : okA v = false) :
    tryA (hrefQuote ++ (v ++ '"' :: t)) = none := by
  unfold tryA
  have hsplit : toL "href=\"../" = hrefQuote ++ toL "../" := by decide
  by_cases h1 : hasPre (toL "href=\"../") (hrefQuote ++ (v ++ '"' :: t)) = true
  case neg => rw [if_neg (by simp [h1])]
  rw [if_pos h1]
  rw [hsplit, hasPre_append_same] at h1
  have hv3 : ∃ v3, v = toL "../" ++ v3 := by
    rcases hasPre_append_cases h1 with ⟨hl, _⟩ | ⟨p2, hp2, hpre2⟩
    · exact hasPre_iff.mp hl
    · cases p2 with
      | nil => exact ⟨[], by rw [List.append_nil] at hp2; rw [← hp2]; simp⟩
      | cons d p2' =>
        exfalso
        have hd := hasPre_quote_head hpre2
        subst hd
        have : ('"' : Char) ∈ toL "../" := by
          rw [hp2]; exact List.mem_append.mpr (Or.inr (List.mem_cons_self _ _))
        exact absurd this (by decide)
  obtain ⟨v3, hv⟩ := hv3
  have hv3qf : QF v3 := by rw [hv] at hqf; exact (QF_append.mp hqf).2
  have hdrop9 : (hrefQuote ++ (v ++ '"' :: t)).drop 9 = v3 ++ '"' :: t := by
    rw [hv, show hrefQuote ++ ((toL "../" ++ v3) ++ '"' :: t) =
          (hrefQuote ++ toL "../") ++ (v3 ++ '"' :: t) from by simp,
      show (9 : Nat) = (hrefQuote ++ toL "../").length from by decide, List.drop_left]
  rw [hdrop9]
  have hbr1 : hasPre (toL "README.md\"") (v3 ++ '"' :: t) = false := by
    by_contra hb
    have hb' : hasPre (toL "README.md\"") (v3 ++ '"' :: t) = true := by
      cases hx : hasPre (toL "README.md\"") (v3 ++ '"' :: t) with
      | true => rfl
      | false => exact absurd hx hb
    rcases hasPre_append_cases hb' with ⟨hl, _⟩ | ⟨p2, hp2, hpre2⟩
    · exact absurd
        (mem_of_hasPre hl (show ('"' : Char) ∈ toL "README.md\"" from by decide))
        (by simpa using hv3qf '"')
    · cases p2 with
      | nil =>
        rw [List.append_nil] at hp2
        exact absurd (by rw [← hp2]; decide : ('"' : Char) ∈ v3) (by simpa using hv3qf '"')
      | cons d p2' =>
        have hd := hasPre_quote_head hpre2
        subst hd
        have huq := uniqQuote (by decide) hv3qf
          (show toL "README.md" ++ '"' :: [] = v3 ++ '"' :: p2' from by
            rw [← hp2]; decide)
        have hveq : v = toL "../README.md" := by
          rw [hv, ← huq.1]; decide
        rw [hveq] at hok
        exact absurd hok (by decide)
  rw [if_neg (by simp [hbr1])]
  by_cases h3 : hasPre (toL "exercises/") (v3 ++ '"' :: t) = true
  case neg => rw [if_neg (by simp [h3])]
  rw [if_pos h3]
  have hv4 : ∃ v4, v3 = toL "exercises/" ++ v4 := by
    rcases hasPre_append_cases h3 with ⟨hl, _⟩ | ⟨p2, hp2, hpre2⟩
    · exact hasPre_iff.mp hl
    · cases p2 with
      | nil => exact ⟨[], by rw [List.append_nil] at hp2; rw [← hp2]; simp⟩
      | cons d p2' =>
        exfalso
        have hd := hasPre_quote_head hpre2
        subst hd
        have : ('"' : Char) ∈ toL "exercises/" := by
          rw [hp2]; exact List.mem_append.mpr (Or.inr (List.mem_cons_self _ _))
        exact absurd this (by decide)
  obtain ⟨v4, hv34⟩ := hv4
  have hv4qf : QF v4 := by rw [hv34] at hv3qf; exact (QF_append.mp hv3qf).2
  have hdrop19 : (hrefQuote ++ (v ++ '"' :: t)).drop 19 = v4 ++ '"' :: t := by
    rw [hv, hv34, show hrefQuote ++ (((toL "../" ++ (toL "exercises/" ++ v4)) ++ '"' :: t)) =
          (hrefQuote ++ toL "../" ++ toL "exercises/") ++ (v4 ++ '"' :: t) from by simp,
      show (19 : Nat) = (hrefQuote ++ toL "../" ++ toL "exercises/").length from by decide,
      List.drop_left]
  rw [hdrop19, takeToQuote_of_qf hv4qf]
  show (if endsWith (toL ".md") v4 = true ∧ 4 ≤ v4.length then
      some (replFuncA (toL "href=\"../exercises/" ++ v4 ++ ['"']), t)
    else none) = none
  rw [if_neg (by
    rintro ⟨hc1, hc2⟩
    have hvv : v = toL "../exercises/" ++ v4 := by
      rw [hv, hv34, ← List.append_assoc,
        show toL "../" ++ toL "exercises/" = toL "../exercises/" from by decide]
    have hd13 : (toL "../exercises/" ++ v4).drop 13 = v4 := by
      rw [show (13 : Nat) = (toL "../exercises/").length from by decide, List.drop_left]
    have hobad : okA v = true := by
      unfold okA
      rw [hvv, hasPre_self_append, hd13, hc1]
      simp [hc2]
    rw [hobad] at hok
    exact absurd hok (by decide))]

theorem tryA_fail3 {v : Str} (hqf : QF v) : tryA (hrefQuote ++ v) = none := by
  unfold tryA
  by_cases h1 : hasPre (toL "href=\"../") (hrefQuote ++ v) = true
  case neg => rw [if_neg (by simp [h1])]
  rw [if_pos h1]
  rw [show toL "href=\"../" = hrefQuote ++ toL "../" from by decide,
    hasPre_append_same] at h1
  obtain ⟨v3, hv⟩ := hasPre_iff.mp h1
  have hv3qf : QF v3 := by rw [hv] at hqf; exact (QF_append.mp hqf).2
  have hdrop9 : (hrefQuote ++ v).drop 9 = v3 := by
    rw [hv, show hrefQuote ++ (toL "../" ++ v3) =
          (hrefQuote ++ toL "../") ++ v3 from by simp,
      show (9 : Nat) = (hrefQuote ++ toL "../").length from by decide, List.drop_left]
  rw [hdrop9]
  have hbr1 : hasPre (toL "README.md\"") v3 = false := by
    cases hx : hasPre (toL "README.md\"") v3 with
    | false => rfl
    | true =>
      exact absurd
        (mem_of_hasPre hx (show ('"' : Char) ∈ toL "README.md\"" from by decide))
        (by simpa using hv3qf '"')
  rw [if_neg (by simp [hbr1])]
  by_cases h3 : hasPre (toL "exercises/") v3 = true
  case neg => rw [if_neg (by simp [h3])]
  rw [if_pos h3]
  obtain ⟨v4, hv34⟩ := hasPre_iff.mp h3
  have hv4qf : QF v4 := by rw [hv34] at hv3qf; exact (QF_append.mp hv3qf).2
  have hdrop19 : (hrefQuote ++ v).drop 19 = v4 := by
    rw [hv, hv34, show hrefQuote ++ (toL "../" ++ (toL "exercises/" ++ v4)) =
          (hrefQuote ++ toL "../" ++ toL "exercises/") ++ v4 from by simp,
      show (19 : Nat) = (hrefQuote ++ toL "../" ++ toL "exercises/").length from by decide,
      List.drop_left]
  rw [hdrop19, takeToQuote_none_of_qf hv4qf]

theorem tryA_consumes : ∀ s rep rest, tryA s = some (rep, rest) → rest.length < s.length := by
  intro s rep rest h
  obtain ⟨v, t, _, _, hs, hpr⟩ := tryA_shape h
  have h2 := (Prod.mk.injEq _ _ _ _).mp hpr
  rw [hs, ← h2.2]
  simp only [List.length_append, List.length_cons]
  omega

/-! ### Regex B matches exactly the accepted values -/

theorem tryB_shape {s : Str} {pr : Str × Str} (h : tryB s = some pr) :
    ∃ v t, QF v ∧ okB v = true ∧ s = hrefQuote ++ (v ++ '"' :: t) ∧
      pr = (hrefQuote ++ (newValB v ++ ['"']), t) := by
  unfold tryB at h
  by_cases h1 : hasPre (toL "href=\"") s = true
  case neg => rw [if_neg (by simp [h1])] at h; cases h
  rw [if_pos h1] at h
  obtain ⟨r, hr⟩ := hasPre_iff.mp h1
  have hdrop6 : s.drop 6 = r := by
    rw [hr, show (6 : Nat) = (toL "href=\"").length from by decide, List.drop_left]
  rw [hdrop6] at h
  cases htq : takeToQuote r with
  | none => rw [htq] at h; cases h
  | some p =>
    obtain ⟨w, t⟩ := p
    rw [htq] at h
    have h' : (if okB w = true then
        some (toL "href=\"" ++ dropTail 3 w ++ toL ".html\"", t)
      else none) = some pr := h
    obtain ⟨hwqf, hreq⟩ := takeToQuote_some htq
    by_cases h2 : okB w = true
    case neg => rw [if_neg h2] at h'; cases h'
    rw [if_pos h2] at h'
    injection h' with hpr
    refine ⟨w, t, hwqf, h2, ?_, ?_⟩
    · rw [hr, hreq]; rfl
    · rw [← hpr, show toL ".html\"" = toL ".html" ++ ['"'] from by decide]
      simp [newValB, hrefQuote, List.append_assoc]

theorem tryB_conv {v : Str} (t : Str) (hqf : QF v) (hok : okB v = true) :
    tryB (hrefQuote ++ (v ++ '"' :: t)) =
      some (hrefQuote ++ (newValB v ++ ['"']), t) := by
  unfold tryB
  rw [if_pos (show hasPre (toL "href=\"") (hrefQuote ++ (v ++ '"' :: t)) = true from
    hasPre_self_append _ _)]
  have hdrop6 : (hrefQuote ++ (v ++ '"' :: t)).drop 6 = v ++ '"' :: t := by
    rw [show (6 : Nat) = hrefQuote.length from by decide, List.drop_left]
  rw [hdrop6, takeToQuote_of_qf hqf]
  show (if okB v = true then
      some (toL "href=\"" ++ dropTail 3 v ++ toL ".html\"", t)
    else none) = _
  rw [if_pos hok, show toL ".html\"" = toL ".html" ++ ['"'] from by decide]
  simp [newValB, hrefQuote, List.append_assoc]

theorem tryB_fail2 {v : Str} (t : Str) (hqf : QF v) (hok : okB v = false) :
    tryB (hrefQuote ++ (v ++ '"' :: t)) = none := by
  unfold tryB
  rw [if_pos (show hasPre (toL "href=\"") (hrefQuote ++ (v ++ '"' :: t)) = true from
    hasPre_self_append _ _)]
  have hdrop6 : (hrefQuote ++ (v ++ '"' :: t)).drop 6 = v ++ '"' :: t := by
    rw [show (6 : Nat) = hrefQuote.length from by decide, List.drop_left]
  rw [hdrop6, takeToQuote_of_qf hqf]
  show (if okB v = true then
      some (toL "href=\"" ++ dropTail 3 v ++ toL ".html\"", t)
    else none) = none
  rw [if_neg (by simp [hok])]

theorem tryB_fail3 {v : Str} (hqf : QF v) : tryB (hrefQuote ++ v) = none := by
  unfold tryB
  by_cases h1 : hasPre (toL "href=\"") (hrefQuote ++ v) = true
  case neg => rw [if_neg (by simp [h1])]
  rw [if_pos h1]
  have hdrop6 : (hrefQuote ++ v).drop 6 = v := by
    rw [show (6 : Nat) = hrefQuote.length from by decide, List.drop_left]
  rw [hdrop6, takeToQuote_none_of_qf hqf]

theorem tryB_consumes : ∀ s rep rest, tryB s = some (rep, rest) → rest.length < s.length := by
  intro s rep rest h
  obtain ⟨v, t, _, _, hs, hpr⟩ := tryB_shape h
  have h2 := (Prod.mk.injEq _ _ _ _).mp hpr
  rw [hs, ← h2.2]
  simp only [List.length_append, List.length_cons]
  omega

theorem MatchRule.consumes {tf ok nv} (hr : MatchRule tf ok nv) :
    ∀ s rep rest, tf s = some (rep, rest) → rest.length < s.length := by
  intro s rep rest h
  obtain ⟨v, t, _, _, hs, hpr⟩ := hr.1 s _ h
  have h2 := (Prod.mk.injEq _ _ _ _).mp hpr
  rw [hs, ← h2.2]
  simp only [List.length_append, List.length_cons]
  omega

theorem scan_qf_id {tf ok nv} (hr : MatchRule tf ok nv) :
    ∀ s, QF s → scanRepl tf s = s := by
  intro s
  induction s with
  | nil => intro _; rfl
  | cons c cs ih =>
    intro hqf
    cases htf : tf (c :: cs) with
    | some pr =>
      exfalso
      obtain ⟨v, t, _, _, hs, _⟩ := hr.1 _ _ htf
      have hmem : ('"' : Char) ∈ c :: cs := by
        rw [hs]
        exact List.mem_append.mpr (Or.inl (by decide))
      exact absurd hmem (by simpa using hqf '"')
    | none =>
      rw [scanRepl_copy htf, ih (QF_of_cons hqf).2]

theorem replSegs_cons2 (ok : Str → Bool) (nv : Str → Str) (u v : Str) (rest : List Str) :
    replSegs ok nv (u :: v :: rest) =
      if rest ≠ [] ∧ endsWith hrefKey u = true ∧ ok v = true then
        u :: nv v :: replSegs ok nv rest
      else u :: replSegs ok nv (v :: rest) := rfl

theorem replSegs_length (ok : Str → Bool) (nv : Str → Str) :
    ∀ L, (replSegs ok nv L).length = L.length := by
  intro L
  induction L using replSegs.induct ok nv with
  | case1 => rfl
  | case2 u => rfl
  | case3 u v rest hc ih =>
    rw [replSegs_cons2, if_pos hc]
    simpa using ih
  | case4 u v rest hc ih =>
    rw [replSegs_cons2, if_neg hc]
    simpa using ih

theorem joinQ_cons_ne_nil {L : List Str} (h : L ≠ []) (u : Str) :
    joinQ (u :: L) = u ++ '"' :: joinQ L := by
  cases L with
  | nil => exact absurd rfl h
  | cons v rs => rfl

theorem genW1 {tf ok nv} (hr : MatchRule tf ok nv) :
    ∀ u : Str, QF u → ∀ t : Str,
      ((¬∃ u0, u = u0 ++ hrefKey) ∨ tf (hrefQuote ++ t) = none) →
      scanRepl tf (u ++ '"' :: t) = u ++ '"' :: scanRepl tf t := by
  intro u
  induction u with
  | nil =>
    intro _ t _
    cases htf : tf ('"' :: t) with
    | some pr =>
      exfalso
      obtain ⟨v, t2, _, _, hs, _⟩ := hr.1 _ _ htf
      rw [hrefQuoteL] at hs
      exact absurd (List.cons.injEq _ _ _ _ ▸ hs).1 (by decide)
    | none =>
      rw [show (([] : Str) ++ '"' :: t) = '"' :: t from rfl, scanRepl_copy htf]
      rfl
  | cons c u' ih =>
    intro hqf t hside
    obtain ⟨hc, hu'⟩ := QF_of_cons hqf
    cases htf : tf ((c :: u') ++ '"' :: t) with
    | some pr =>
      exfalso
      obtain ⟨v, t2, hvqf, hvok, hs, _⟩ := hr.1 _ _ htf
      have hs' : (c :: u') ++ '"' :: t = hrefKey ++ '"' :: (v ++ '"' :: t2) := by
        rw [hs, hrefQuote_eq]; simp
      obtain ⟨heq, hteq⟩ := uniqQuote hqf QF_hrefKey hs'
      rcases hside with hno | hnone
      · exact hno ⟨[], by rw [heq]; rfl⟩
      · rw [hteq] at hnone
        rw [hr.2.1 v t2 hvqf hvok] at hnone
        cases hnone
    | none =>
      have hcopy : scanRepl tf (c :: (u' ++ '"' :: t)) = c :: scanRepl tf (u' ++ '"' :: t) :=
        scanRepl_copy (by simpa using htf)
      have hside' : (¬∃ u0, u' = u0 ++ hrefKey) ∨ tf (hrefQuote ++ t) = none := by
        rcases hside with hno | hnone
        · left
          rintro ⟨u0', h0⟩
          exact hno ⟨c :: u0', by rw [h0]; rfl⟩
        · right; exact hnone
      calc scanRepl tf ((c :: u') ++ '"' :: t)
          = c :: scanRepl tf (u' ++ '"' :: t) := hcopy
        _ = c :: (u' ++ '"' :: scanRepl tf t) := by rw [ih hu' t hside']
        _ = (c :: u') ++ '"' :: scanRepl tf t := rfl

theorem genW2 {tf ok nv} (hr : MatchRule tf ok nv) :
    ∀ u0 : Str, QF (u0 ++ hrefKey) → ∀ t rep rest : Str,
      tf (hrefQuote ++ t) = some (rep, rest) →
      scanRepl tf ((u0 ++ hrefKey) ++ '"' :: t) = u0 ++ (rep ++ scanRepl tf rest) := by
  intro u0
  induction u0 with
  | nil =>
    intro _ t rep rest htf
    have he : (([] : Str) ++ hrefKey) ++ '"' :: t = hrefQuote ++ t := by
      rw [hrefQuote_eq]; simp
    rw [he, scanRepl_match hr.consumes htf]
    rfl
  | cons c u0' ih =>
    intro hqf t rep rest htf
    obtain ⟨hc, hu0'⟩ := QF_of_cons (by simpa using hqf)
    cases htf2 : tf ((c :: u0' ++ hrefKey) ++ '"' :: t) with
    | some pr =>
      exfalso
      obtain ⟨v, t2, _, _, hs, _⟩ := hr.1 _ _ htf2
      have hs' : (c :: (u0' ++ hrefKey)) ++ '"' :: t = hrefKey ++ '"' :: (v ++ '"' :: t2) := by
        rw [show hrefKey ++ '"' :: (v ++ '"' :: t2) = hrefQuote ++ (v ++ '"' :: t2) from by
          rw [hrefQuote_eq]; simp]
        simpa using hs
      obtain ⟨heq, _⟩ := uniqQuote (by simpa using hqf) QF_hrefKey hs'
      have := congrArg List.length heq
      simp [hrefKeyL] at this
    | none =>
      have hcopy : scanRepl tf (c :: ((u0' ++ hrefKey) ++ '"' :: t)) =
          c :: scanRepl tf ((u0' ++ hrefKey) ++ '"' :: t) :=
        scanRepl_copy (by simpa using htf2)
      calc scanRepl tf ((c :: u0' ++ hrefKey) ++ '"' :: t)
          = c :: scanRepl tf ((u0' ++ hrefKey) ++ '"' :: t) := hcopy
        _ = c :: (u0' ++ (rep ++ scanRepl tf rest)) := by rw [ih hu0' t rep rest htf]
        _ = (c :: u0') ++ (rep ++ scanRepl tf rest) := rfl

theorem genEquiv {tf ok nv} (hr : MatchRule tf ok nv) :
    ∀ n (s : Str), s.length ≤ n →
      scanRepl tf s = joinQ (replSegs ok nv (splitQ s)) := by
  intro n
  induction n with
  | zero =>
    intro s hn
    have : s = [] := List.eq_nil_of_length_eq_zero (Nat.le_zero.mp hn)
    subst this
    rfl
  | succ n ih =>
    intro s hn
    rcases quote_decomp s with hqf | ⟨u, t, huqf, hs⟩
    · rw [scan_qf_id hr s hqf, splitQ_qf hqf]
      rfl
    · subst hs
      rw [splitQ_append_qf huqf]
      obtain ⟨v, rest, hsp⟩ := splitQ_shape t
      have hvqf : QF v := allQF_splitQ t v (by rw [hsp]; exact List.mem_cons_self _ _)
      have hallrest : ∀ seg ∈ rest, QF seg := fun seg hseg =>
        allQF_splitQ t seg (by rw [hsp]; exact List.mem_cons_of_mem _ hseg)
      have htj : t = joinQ (v :: rest) := by rw [← hsp, joinQ_splitQ]
      by_cases hc : rest ≠ [] ∧ endsWith hrefKey u = true ∧ ok v = true
      · obtain ⟨hrne, hends, hok⟩ := hc
        have ht2 : t = v ++ '"' :: joinQ rest := by
          rw [htj, joinQ_cons_ne_nil hrne]
        obtain ⟨u0, hu0⟩ := endsWith_iff.mp hends
        have htf : tf (hrefQuote ++ t) =
            some (hrefQuote ++ (nv v ++ ['"']), joinQ rest) := by
          rw [ht2]; exact hr.2.1 v (joinQ rest) hvqf hok
        rw [hsp, replSegs_cons2, if_pos ⟨hrne, hends, hok⟩, hu0,
          genW2 hr u0 (hu0 ▸ huqf) t _ _ htf]
        have hlen : (joinQ rest).length ≤ n := by
          have h1 : (u ++ '"' :: t).length ≤ n + 1 := hn
          rw [ht2] at h1
          simp only [List.length_append, List.length_cons] at h1
          omega
        rw [ih (joinQ rest) hlen, splitQ_joinQ hallrest hrne]
        have hrsne : replSegs ok nv rest ≠ [] := by
          intro hnil
          have h0 : rest.length = 0 := by
            rw [← replSegs_length ok nv rest, hnil]; rfl
          exact hrne (List.eq_nil_of_length_eq_zero h0)
        rw [joinQ_cons_ne_nil (show (nv v :: replSegs ok nv rest) ≠ [] from by simp),
          joinQ_cons_ne_nil hrsne, hrefQuote_eq]
        simp [List.append_assoc]
      · have hcond : (¬∃ u0, u = u0 ++ hrefKey) ∨ tf (hrefQuote ++ t) = none := by
          by_cases hends : endsWith hrefKey u = true
          · right
            by_cases hrne : rest ≠ []
            · have hokf : ok v = false := by
                cases hov : ok v with
                | false => rfl
                | true => exact absurd ⟨hrne, hends, hov⟩ hc
              have ht2 : t = v ++ '"' :: joinQ rest := by
                rw [htj, joinQ_cons_ne_nil hrne]
              rw [ht2]
              exact hr.2.2.1 v (joinQ rest) hvqf hokf
            · push_neg at hrne
              have htv : t = v := by rw [htj, hrne]; rfl
              rw [htv]
              exact hr.2.2.2 v hvqf
          · left
            rintro ⟨u0, hu0⟩
            exact hends (endsWith_iff.mpr ⟨u0, hu0⟩)
        rw [genW1 hr u huqf t hcond]
        have hlen : t.length ≤ n := by
          have h1 : (u ++ '"' :: t).length ≤ n + 1 := hn
          simp only [List.length_append, List.length_cons] at h1
          omega
        rw [ih t hlen, hsp, replSegs_cons2, if_neg hc]
        have hmne : replSegs ok nv (v :: rest) ≠ [] := by
          intro hnil
          have h0 : (v :: rest).length = 0 := by
            rw [← replSegs_length ok nv (v :: rest), hnil]; rfl
          simp at h0
        rw [joinQ_cons_ne_nil hmne]

theorem scanRepl_eq_segs {tf ok nv} (hr : MatchRule tf ok nv) (s : Str) :
    scanRepl tf s = joinQ (replSegs ok nv (splitQ s)) :=
  genEquiv hr s.length s (le_refl _)

/-! ### No residual matches after a segment rewrite -/

theorem matchRuleA : MatchRule tryA okA newValA :=
  ⟨fun _ _ h => tryA_shape h, fun _ t hqf hok => tryA_conv t hqf hok,
   fun _ t hqf hok => tryA_fail2 t hqf hok, fun _ hqf => tryA_fail3 hqf⟩

theorem matchRuleB : MatchRule tryB okB newValB :=
  ⟨fun _ _ h => tryB_shape h, fun _ t hqf hok => tryB_conv t hqf hok,
   fun _ t hqf hok => tryB_fail2 t hqf hok, fun _ hqf => tryB_fail3 hqf⟩

theorem okA_newValA (w : Str) : okA (newValA w) = false := by
  obtain ⟨x, hx⟩ := newValA_form w
  rw [hx]; exact okA_html x

theorem okB_newValA (w : Str) : okB (newValA w) = false := by
  obtain ⟨x, hx⟩ := newValA_form w
  rw [hx]; exact okB_html x

theorem okA_newValB (w : Str) : okA (newValB w) = false := by
  obtain ⟨x, hx⟩ := newValB_form w
  rw [hx]; exact okA_html x

theorem okB_newValB (w : Str) : okB (newValB w) = false := by
  obtain ⟨x, hx⟩ := newValB_form w
  rw [hx]; exact okB_html x

theorem endsHref_newValA (w : Str) : endsWith hrefKey (newValA w) = false := by
  obtain ⟨x, hx⟩ := newValA_form w
  rw [hx]; exact not_href_html x

theorem endsHref_newValB (w : Str) : endsWith hrefKey (newValB w) = false := by
  obtain ⟨x, hx⟩ := newValB_form w
  rw [hx]; exact not_href_html x

theorem NoM_tail {ok : Str → Bool} {v : Str} {rest : List Str}
    (h : NoM ok (v :: rest)) : NoM ok rest := by
  cases rest with
  | nil => trivial
  | cons w ws => exact h.2

theorem replSegs_head (ok : Str → Bool) (nv : Str → Str) (v : Str) (rest : List Str) :
    ∃ T, replSegs ok nv (v :: rest) = v :: T ∧ T.length = rest.length := by
  cases rest with
  | nil => exact ⟨[], rfl, rfl⟩
  | cons w ws =>
    by_cases hc : ws ≠ [] ∧ endsWith hrefKey v = true ∧ ok w = true
    · exact ⟨nv w :: replSegs ok nv ws, by rw [replSegs_cons2, if_pos hc],
        by simp [replSegs_length]⟩
    · exact ⟨replSegs ok nv (w :: ws), by rw [replSegs_cons2, if_neg hc],
        by simp [replSegs_length]⟩

theorem replSegs_of_NoM {ok : Str → Bool} (nv : Str → Str) :
    ∀ L, NoM ok L → replSegs ok nv L = L := by
  intro L
  induction L using replSegs.induct ok nv with
  | case1 => intro _; rfl
  | case2 u => intro _; rfl
  | case3 u v rest hc ih => intro hnm; exact absurd hc hnm.1
  | case4 u v rest hc ih =>
    intro hnm
    rw [replSegs_cons2, if_neg hc, ih hnm.2]

theorem NoM_replSegs_self {ok : Str → Bool} {nv : Str → Str}
    (hok : ∀ w, ok (nv w) = false)
    (hhref : ∀ w, endsWith hrefKey (nv w) = false) :
    ∀ L, NoM ok (replSegs ok nv L) := by
  intro L
  induction L using replSegs.induct ok nv with
  | case1 => trivial
  | case2 u => trivial
  | case3 u v rest hc ih =>
    rw [replSegs_cons2, if_pos hc]
    refine ⟨?_, ?_⟩
    · rintro ⟨_, _, hbad⟩
      rw [hok v] at hbad
      exact absurd hbad (by decide)
    · cases hT : replSegs ok nv rest with
      | nil => trivial
      | cons w ws =>
        refine ⟨?_, ?_⟩
        · rintro ⟨_, hbad, _⟩
          rw [hhref v] at hbad
          exact absurd hbad (by decide)
        · exact hT ▸ ih
  | case4 u v rest hc ih =>
    obtain ⟨T, hT, hTlen⟩ := replSegs_head ok nv v rest
    rw [replSegs_cons2, if_neg hc, hT]
    refine ⟨?_, ?_⟩
    · rintro ⟨hTne, hends, hokv⟩
      have hrne : rest ≠ [] := by
        intro h0
        rw [h0] at hTlen
        exact hTne (List.eq_nil_of_length_eq_zero hTlen)
      exact hc ⟨hrne, hends, hokv⟩
    · exact hT ▸ ih

theorem NoM_pres {okX ok : Str → Bool} {nv : Str → Str}
    (hok : ∀ w, okX (nv w) = false)
    (hhref : ∀ w, endsWith hrefKey (nv w) = false) :
    ∀ L, NoM okX L → NoM okX (replSegs ok nv L) := by
  intro L
  induction L using replSegs.induct ok nv with
  | case1 => intro _; trivial
  | case2 u => intro _; trivial
  | case3 u v rest hc ih =>
    intro hnm
    rw [replSegs_cons2, if_pos hc]
    refine ⟨?_, ?_⟩
    · rintro ⟨_, _, hbad⟩
      rw [hok v] at hbad
      exact absurd hbad (by decide)
    · cases hT : replSegs ok nv rest with
      | nil => trivial
      | cons w ws =>
        refine ⟨?_, ?_⟩
        · rintro ⟨_, hbad, _⟩
          rw [hhref v] at hbad
          exact absurd hbad (by decide)
        · exact hT ▸ ih (NoM_tail hnm.2)
  | case4 u v rest hc ih =>
    intro hnm
    obtain ⟨T, hT, hTlen⟩ := replSegs_head ok nv v rest
    rw [replSegs_cons2, if_neg hc, hT]
    refine ⟨?_, ?_⟩
    · rintro ⟨hTne, hends, hokv⟩
      have hrne : rest ≠ [] := by
        intro h0
        rw [h0] at hTlen
        exact hTne (List.eq_nil_of_length_eq_zero hTlen)
      exact hnm.1 ⟨hrne, hends, hokv⟩
    · exact hT ▸ ih hnm.2

theorem segs_fix_idem (L : List Str) :
    replSegs okB newValB (replSegs okA newValA
      (replSegs okB newValB (replSegs okA newValA L))) =
    replSegs okB newValB (replSegs okA newValA L) := by
  have h1 : NoM okA (replSegs okA newValA L) :=
    NoM_replSegs_self okA_newValA endsHref_newValA L
  have h2 : NoM okA (replSegs okB newValB (replSegs okA newValA L)) :=
    NoM_pres okA_newValB endsHref_newValB _ h1
  have h3 : NoM okB (replSegs okB newValB (replSegs okA newValA L)) :=
    NoM_replSegs_self okB_newValB endsHref_newValB _
  rw [replSegs_of_NoM newValA _ h2, replSegs_of_NoM newValB _ h3]

theorem allQF_replSegs {ok : Str → Bool} {nv : Str → Str}
    (hnv : ∀ w, QF w → QF (nv w)) :
    ∀ L, (∀ seg ∈ L, QF seg) → ∀ seg ∈ replSegs ok nv L, QF seg := by
  intro L
  induction L using replSegs.induct ok nv with
  | case1 =>
    intro _ seg hseg
    exact absurd hseg (List.not_mem_nil seg)
  | case2 u => intro h seg hseg; exact h seg hseg
  | case3 u v rest hc ih =>
    intro h seg hseg
    rw [replSegs_cons2, if_pos hc] at hseg
    rcases List.mem_cons.mp hseg with rfl | hseg2
    · exact h seg (List.mem_cons_self _ _)
    rcases List.mem_cons.mp hseg2 with rfl | hseg3
    · exact hnv v (h v (by simp))
    · exact ih (fun sg hsg => h sg (by simp [hsg])) seg hseg3
  | case4 u v rest hc ih =>
    intro h seg hseg
    rw [replSegs_cons2, if_neg hc] at hseg
    rcases List.mem_cons.mp hseg with rfl | hseg2
    · exact h seg (List.mem_cons_self _ _)
    · exact ih (fun sg hsg => h sg (by simp [hsg])) seg hseg2

theorem replSegs_ne_nil {ok : Str → Bool} {nv : Str → Str} {L : List Str}
    (h : L ≠ []) : replSegs ok nv L ≠ [] := by
  intro h0
  have hl := replSegs_length ok nv L
  rw [h0] at hl
  exact h (List.eq_nil_of_length_eq_zero hl.symm)

/-- C1: the link rewriter is idempotent: for every HTML fragment s,
fixRelativeLinks (fixRelativeLinks s) = fixRelativeLinks s. -/
theorem fixRelativeLinks_idempotent (s : Str) :
    fixRelativeLinks (fixRelativeLinks s) = fixRelativeLinks s := by
  unfold fixRelativeLinks
  have hL := allQF_splitQ s
  have hLne : splitQ s ≠ [] := by
    obtain ⟨v, rest, h⟩ := splitQ_shape s
    rw [h]; simp
  rw [scanRepl_eq_segs matchRuleA s]
  have hAqf : ∀ seg ∈ replSegs okA newValA (splitQ s), QF seg :=
    allQF_replSegs (fun _ hw => QF_newValA hw) _ hL
  have hAne : replSegs okA newValA (splitQ s) ≠ [] := replSegs_ne_nil hLne
  rw [scanRepl_eq_segs matchRuleB (joinQ (replSegs okA newValA (splitQ s))),
    splitQ_joinQ hAqf hAne]
  have hBAqf : ∀ seg ∈ replSegs okB newValB (replSegs okA newValA (splitQ s)), QF seg :=
    allQF_replSegs (fun _ hw => QF_newValB hw) _ hAqf
  have hBAne : replSegs okB newValB (replSegs okA newValA (splitQ s)) ≠ [] :=
    replSegs_ne_nil hAne
  rw [scanRepl_eq_segs matchRuleA
      (joinQ (replSegs okB newValB (replSegs okA newValA (splitQ s)))),
    splitQ_joinQ hBAqf hBAne]
  have hABAqf : ∀ seg ∈ replSegs okA newValA
      (replSegs okB newValB (replSegs okA newValA (splitQ s))), QF seg :=
    allQF_replSegs (fun _ hw => QF_newValA hw) _ hBAqf
  have hABAne : replSegs okA newValA
      (replSegs okB newValB (replSegs okA newValA (splitQ s))) ≠ [] :=
    replSegs_ne_nil hBAne
  rw [scanRepl_eq_segs matchRuleB
      (joinQ (replSegs okA newValA
        (replSegs okB newValB (replSegs okA newValA (splitQ s))))),
    splitQ_joinQ hABAqf hABAne]
  exact congrArg joinQ (segs_fix_idem (splitQ s))

/-! ### Substring containment characterization -/

theorem containsSub_iff {pat s : Str} :
    containsSub pat s = true ↔ ∃ x y, s = x ++ pat ++ y := by
  induction s with
  | nil =>
    simp only [containsSub, hasPre_iff]
    constructor
    · rintro ⟨t, ht⟩
      exact ⟨[], t, ht⟩
    · rintro ⟨x, y, hxy⟩
      refine ⟨y, ?_⟩
      have hx : x = [] := by
        cases x with
        | nil => rfl
        | cons c cs => simp at hxy
      rw [hx] at hxy
      simpa using hxy
  | cons c cs ih =>
    simp only [containsSub, Bool.or_eq_true_iff, hasPre_iff, ih]
    constructor
    · rintro (⟨t, ht⟩ | ⟨x, y, hxy⟩)
      · exact ⟨[], t, by simpa using ht⟩
      · exact ⟨c :: x, y, by rw [hxy]; rfl⟩
    · rintro ⟨x, y, hxy⟩
      cases x with
      | nil => exact Or.inl ⟨y, by simpa using hxy⟩
      | cons d ds =>
        right
        refine ⟨ds, y, ?_⟩
        have := (List.cons.injEq _ _ _ _).mp (by simpa using hxy)
        rw [List.append_assoc]
        exact this.2

theorem endsWith_self (p : Str) : endsWith p p = true :=
  endsWith_iff.mpr ⟨[], (List.nil_append p).symm⟩

theorem isDigit_ne_quote {d : Char} (h : d.isDigit = true) : d ≠ '"' := by
  intro heq
  rw [heq] at h
  exact absurd h (by decide)

/-- C5: the link rewriter's two recognized shapes and its passthrough: an
overview reference rewrites to the landing page, a sibling reference swaps
the extension, and hyperlinks matching neither shape (an external URL, an
anchor) are left byte-identical. -/
theorem fixRelativeLinks_shapes :
    fixRelativeLinks (toL "<a href=\"../README.md\">Back</a>") =
        toL "<a href=\"index.html\">Back</a>" ∧
    fixRelativeLinks (toL "<a href=\"03-topic.md\">E3</a>") =
        toL "<a href=\"03-topic.html\">E3</a>" ∧
    fixRelativeLinks (toL "<a href=\"https://example.com\">x</a>") =
        toL "<a href=\"https://example.com\">x</a>" ∧
    fixRelativeLinks (toL "<a href=\"#setup\">jump</a>") =
        toL "<a href=\"#setup\">jump</a>" := by
  refine ⟨?_, ?_, ?_, ?_⟩ <;> decide

/-- C9: a sibling reference  ../exercises/NAME.md  whose name contains the
substring README.md is sent to the landing page, because the callback decides
the overview rule by substring containment on the whole matched text. -/
theorem readme_containment_overrides (name : Str) (hqf : QF name) (hne : name ≠ [])
    (hcont : containsSub (toL "README.md") name = true) :
    fixRelativeLinks (toL "href=\"../exercises/" ++ name ++ toL ".md\"") =
      toL "href=\"index.html\"" := by
  unfold fixRelativeLinks
  have hqfv : QF (toL "../exercises/" ++ (name ++ toL ".md")) :=
    QF_append.mpr ⟨by decide, QF_append.mpr ⟨hqf, by decide⟩⟩
  have hsplit : toL "href=\"../exercises/" ++ name ++ toL ".md\"" =
      hrefQuote ++ ((toL "../exercises/" ++ (name ++ toL ".md")) ++ '"' :: []) := by
    rw [toLhrefEx, hrefQuoteL, toLexPath,
      show toL ".md\"" = '.' :: 'm' :: 'd' :: '"' :: [] from by decide,
      show toL ".md" = '.' :: 'm' :: 'd' :: [] from by decide]
    simp
  have hends : endsWith (toL ".md") (name ++ toL ".md") = true :=
    endsWith_iff.mpr ⟨name, rfl⟩
  have hlen4 : 4 ≤ (name ++ toL ".md").length := by
    have h1 : 1 ≤ name.length := List.length_pos.mpr hne
    rw [List.length_append, show (toL ".md").length = 3 from by decide]
    omega
  have hd13 : (toL "../exercises/" ++ (name ++ toL ".md")).drop 13 = name ++ toL ".md" := by
    rw [show (13 : Nat) = (toL "../exercises/").length from by decide, List.drop_left]
  have hok : okA (toL "../exercises/" ++ (name ++ toL ".md")) = true := by
    unfold okA
    rw [hasPre_self_append, hd13, hends]
    have hlen4' : 4 ≤ name.length + (toL ".md").length := by
      simpa [List.length_append] using hlen4
    simp [hlen4']
  have hnew : newValA (toL "../exercises/" ++ (name ++ toL ".md")) = toL "index.html" := by
    unfold newValA
    rw [if_pos ?hcond]
    case hcond =>
      obtain ⟨x, y, hxy⟩ := containsSub_iff.mp hcont
      refine containsSub_iff.mpr
        ⟨hrefQuote ++ toL "../exercises/" ++ x, y ++ toL ".md" ++ ['"'], ?_⟩
      rw [hxy]
      simp
  have htry : tryA (hrefQuote ++
      ((toL "../exercises/" ++ (name ++ toL ".md")) ++ '"' :: ([] : Str))) =
      some (hrefQuote ++
        (newValA (toL "../exercises/" ++ (name ++ toL ".md")) ++ ['"']), []) :=
    tryA_conv [] hqfv hok
  rw [hsplit, scanRepl_match tryA_consumes htry, hnew,
    show scanRepl tryA ([] : Str) = [] from rfl, List.append_nil,
    show hrefQuote ++ (toL "index.html" ++ ['"']) = toL "href=\"index.html\"" from by decide]
  decide

/-- C10: the sibling rewrite fires for every quoted value of the form
two digits, a dash, then a nonempty quote-free run ending in  .md ; it
consults nothing but the text itself, so also names no descriptor has. -/
theorem sibling_rewrite_unconditional (d1 d2 : Char) (z : Str)
    (hd1 : d1.isDigit = true) (hd2 : d2.isDigit = true)
    (hqf : QF z) (hne : z ≠ []) :
    fixRelativeLinks (hrefQuote ++ ((d1 :: d2 :: '-' :: (z ++ toL ".md")) ++ '"' :: [])) =
      hrefQuote ++ ((d1 :: d2 :: '-' :: z) ++ toL ".html" ++ '"' :: []) := by
  unfold fixRelativeLinks
  have hqfv : QF (d1 :: d2 :: '-' :: (z ++ toL ".md")) :=
    QF_cons (isDigit_ne_quote hd1) (QF_cons (isDigit_ne_quote hd2)
      (QF_cons (by decide) (QF_append.mpr ⟨hqf, by decide⟩)))
  have hsplitQ : splitQ (hrefQuote ++ ((d1 :: d2 :: '-' :: (z ++ toL ".md")) ++ '"' :: [])) =
      [hrefKey, d1 :: d2 :: '-' :: (z ++ toL ".md"), []] := by
    rw [hrefQuote_eq,
      show (hrefKey ++ ['"']) ++ ((d1 :: d2 :: '-' :: (z ++ toL ".md")) ++ '"' :: []) =
        hrefKey ++ '"' :: ((d1 :: d2 :: '-' :: (z ++ toL ".md")) ++ '"' :: []) from by simp,
      splitQ_append_qf QF_hrefKey, splitQ_append_qf hqfv]
    rfl
  have hokAf : okA (d1 :: d2 :: '-' :: (z ++ toL ".md")) = false := by
    unfold okA
    rw [show decide (d1 :: d2 :: '-' :: (z ++ toL ".md") = toL "../README.md") = false from by
        rw [decide_eq_false_iff_not]
        intro heq
        rw [toLreadmePath] at heq
        have hd := (List.cons.injEq _ _ _ _).mp heq
        rw [hd.1] at hd1
        exact absurd hd1 (by decide),
      show hasPre (toL "../exercises/") (d1 :: d2 :: '-' :: (z ++ toL ".md")) = false from by
        rw [toLexPath]
        refine hasPre_head_ne ?_
        intro heq
        rw [← heq] at hd1
        exact absurd hd1 (by decide)]
    rfl
  have hA : replSegs okA newValA [hrefKey, d1 :: d2 :: '-' :: (z ++ toL ".md"), []] =
      [hrefKey, d1 :: d2 :: '-' :: (z ++ toL ".md"), []] := by
    rw [replSegs_cons2, if_neg (by rintro ⟨_, _, hbad⟩; rw [hokAf] at hbad; exact absurd hbad (by decide)),
      replSegs_cons2, if_neg (by rintro ⟨h1, _⟩; exact h1 rfl)]
    rfl
  have hokB : okB (d1 :: d2 :: '-' :: (z ++ toL ".md")) = true := by
    show (d1.isDigit && d2.isDigit && decide ('-' = '-') &&
        endsWith (toL ".md") (z ++ toL ".md") && decide (4 ≤ (z ++ toL ".md").length)) = true
    rw [hd1, hd2, endsWith_iff.mpr ⟨z, rfl⟩]
    have h4 : 4 ≤ z.length + (toL ".md").length := by
      have h1 : 1 ≤ z.length := List.length_pos.mpr hne
      rw [show (toL ".md").length = 3 from by decide]
      omega
    simp [h4]
  have hB : replSegs okB newValB [hrefKey, d1 :: d2 :: '-' :: (z ++ toL ".md"), []] =
      [hrefKey, newValB (d1 :: d2 :: '-' :: (z ++ toL ".md")), []] := by
    rw [replSegs_cons2, if_pos ⟨by simp, endsWith_self hrefKey, hokB⟩]
    rfl
  have hnewB : newValB (d1 :: d2 :: '-' :: (z ++ toL ".md")) =
      (d1 :: d2 :: '-' :: z) ++ toL ".html" := by
    unfold newValB
    rw [show (d1 :: d2 :: '-' :: (z ++ toL ".md") : Str) =
        (d1 :: d2 :: '-' :: z) ++ toL ".md" from by simp,
      show (3 : Nat) = (toL ".md").length from by decide, dropTail_append]
  rw [scanRepl_eq_segs matchRuleA, hsplitQ, hA, ← hsplitQ, joinQ_splitQ,
    scanRepl_eq_segs matchRuleB, hsplitQ, hB, hnewB]
  rw [show ([hrefKey, (d1 :: d2 :: '-' :: z) ++ toL ".html", []] : List Str) =
      hrefKey :: ((d1 :: d2 :: '-' :: z) ++ toL ".html") :: [[]] from rfl]
  rw [joinQ_cons_ne_nil (by simp), joinQ_cons_ne_nil (by simp), hrefQuote_eq,
    show joinQ [[]] = ([] : Str) from rfl]
  simp

/-! ### Characterizing one page generation -/

theorem mkExercise_filename (conv : Str → Str) (metas : List ExMeta) (meta : ExMeta)
    (i : Nat) (c : Str) : (mkExercise conv metas meta i c).filename = outName meta := rfl

theorem genPage_ok_fields {ctx : GenCtx} {d o : Str} {metas : List ExMeta}
    {meta : ExMeta} {i : Nat} {ex : Exercise} {w : Str × Str}
    (h : generateExercisePage ctx d o metas meta i = Except.ok (ex, w)) :
    (∃ c, ctx.fs (srcPath d meta) = some c ∧ ex = mkExercise ctx.conv metas meta i c) ∧
      w.1 = pagePath o meta ∧ w.2 = ctx.renderEx ex ∧
      ctx.canW (pagePath o meta) = true := by
  unfold generateExercisePage at h
  cases hfs : ctx.fs (joinPath d meta.filename) with
  | none => rw [hfs] at h; cases h
  | some content =>
    rw [hfs] at h
    have h' : (if ctx.canW (joinPath o (mkExercise ctx.conv metas meta i content).filename)
          = true then
        Except.ok ((mkExercise ctx.conv metas meta i content),
          (joinPath o (mkExercise ctx.conv metas meta i content).filename,
           ctx.renderEx (mkExercise ctx.conv metas meta i content)))
      else Except.error
        (joinPath o (mkExercise ctx.conv metas meta i content).filename)) =
        Except.ok (ex, w) := h
    by_cases hw : ctx.canW (joinPath o (mkExercise ctx.conv metas meta i content).filename)
        = true
    · rw [if_pos hw] at h'
      injection h' with hpair
      have hp := (Prod.mk.injEq _ _ _ _).mp hpair
      rw [mkExercise_filename] at hw
      refine ⟨⟨content, hfs, hp.1.symm⟩, ?_, ?_, hw⟩
      · rw [← hp.2]
        exact congrArg _ (mkExercise_filename _ _ _ _ _)
      · rw [← hp.2, ← hp.1]
    · rw [if_neg hw] at h'; cases h'

theorem genPage_ok_iff {ctx : GenCtx} {d o : Str} {metas : List ExMeta}
    {meta : ExMeta} {i : Nat} :
    (∃ p, generateExercisePage ctx d o metas meta i = Except.ok p) ↔
      pageOk ctx d o meta := by
  unfold generateExercisePage pageOk
  cases hfs : ctx.fs (joinPath d meta.filename) with
  | none =>
    simp only [srcPath, hfs]
    constructor
    · rintro ⟨p, hp⟩; cases hp
    · rintro ⟨h1, _⟩; exact absurd h1 (by decide)
  | some content =>
    simp only [srcPath, hfs, Option.isSome_some, true_and]
    by_cases hw : ctx.canW (joinPath o (mkExercise ctx.conv metas meta i content).filename)
        = true
    · rw [if_pos hw]
      rw [mkExercise_filename] at hw
      exact ⟨fun _ => hw, fun _ => ⟨_, rfl⟩⟩
    · rw [if_neg hw]
      rw [mkExercise_filename] at hw
      constructor
      · rintro ⟨p, hp⟩; cases hp
      · intro h2; exact absurd h2 hw

theorem genPage_error_src {ctx : GenCtx} {d o : Str} {metas : List ExMeta}
    {meta : ExMeta} {i : Nat} (hfs : ctx.fs (srcPath d meta) = none) :
    generateExercisePage ctx d o metas meta i = Except.error (srcPath d meta) := by
  unfold generateExercisePage
  rw [show joinPath d meta.filename = srcPath d meta from rfl, hfs]

theorem genPage_err_res {ctx : GenCtx} {d o : Str} {metas : List ExMeta}
    {meta : ExMeta} {i : Nat} {r : Str}
    (h : generateExercisePage ctx d o metas meta i = Except.error r) :
    r = srcPath d meta ∨ r = pagePath o meta := by
  unfold generateExercisePage at h
  cases hfs : ctx.fs (joinPath d meta.filename) with
  | none =>
    rw [hfs] at h
    injection h with hr
    exact Or.inl hr.symm
  | some content =>
    rw [hfs] at h
    have h' : (if ctx.canW (joinPath o (mkExercise ctx.conv metas meta i content).filename)
          = true then
        Except.ok ((mkExercise ctx.conv metas meta i content),
          (joinPath o (mkExercise ctx.conv metas meta i content).filename,
           ctx.renderEx (mkExercise ctx.conv metas meta i content)))
      else Except.error
        (joinPath o (mkExercise ctx.conv metas meta i content).filename)) =
        Except.error r := h
    by_cases hw : ctx.canW (joinPath o (mkExercise ctx.conv metas meta i content).filename)
        = true
    · rw [if_pos hw] at h'; cases h'
    · rw [if_neg hw] at h'
      injection h' with hr
      right
      rw [← hr, mkExercise_filename]
      rfl

/-! ### Characterizing the page loop -/

theorem getD_mem {l : List ExMeta} {i : Nat} (h : i < l.length) (d : ExMeta) :
    l.getD i d ∈ l := by
  induction l generalizing i with
  | nil => simp at h
  | cons a l' ih =>
    cases i with
    | zero => exact List.mem_cons_self _ _
    | succ j =>
      exact List.mem_cons_of_mem a (ih (by simpa using h) )

theorem range_map_getD {β : Type} (l : List ExMeta) (f : ExMeta → β) :
    (List.range l.length).map (fun i => f (l.getD i dMeta)) = l.map f := by
  induction l with
  | nil => rfl
  | cons a l' ih =>
    rw [show (a :: l').length = l'.length + 1 from rfl, List.range_succ_eq_map]
    simp only [List.map_cons, List.map_map]
    rw [show ((fun i => f ((a :: l').getD i dMeta)) ∘ Nat.succ) =
        (fun i => f (l'.getD i dMeta)) from rfl]
    rw [ih]
    rfl

theorem range_take_map {β : Type} (l : List ExMeta) (f : ExMeta → β) :
    ∀ k, k ≤ l.length →
      (List.range k).map (fun i => f (l.getD i dMeta)) = (l.take k).map f := by
  induction l with
  | nil =>
    intro k hk
    have : k = 0 := Nat.le_zero.mp hk
    subst this
    rfl
  | cons a l' ih =>
    intro k hk
    cases k with
    | zero => rfl
    | succ k' =>
      rw [List.range_succ_eq_map]
      simp only [List.map_cons, List.map_map]
      rw [show ((fun i => f ((a :: l').getD i dMeta)) ∘ Nat.succ) =
          (fun i => f (l'.getD i dMeta)) from rfl]
      rw [ih k' (by simpa using hk)]
      rfl

theorem runPages_cons (ctx : GenCtx) (d o : Str) (metas : List ExMeta) (i : Nat)
    (is : List Nat) :
    runPages ctx d o metas (i :: is) =
      match generateExercisePage ctx d o metas (metas.getD i dMeta) i with
      | Except.error r => Except.error (r, [])
      | Except.ok (ex, w) =>
        match runPages ctx d o metas is with
        | Except.error (r, ws) => Except.error (r, w :: ws)
        | Except.ok (exs, ws) => Except.ok (ex :: exs, w :: ws) := rfl

theorem runPages_ok {ctx : GenCtx} {d o : Str} {metas : List ExMeta} :
    ∀ {is : List Nat} {exs : List Exercise} {ws : List (Str × Str)},
      runPages ctx d o metas is = Except.ok (exs, ws) →
      exs.map (fun e => e.number) = is ∧
      exs.map (fun e => e.filename) = is.map (fun i => outName (metas.getD i dMeta)) ∧
      ws.map Prod.fst = is.map (fun i => pagePath o (metas.getD i dMeta)) ∧
      ∀ ex ∈ exs, ∃ i, i ∈ is ∧ ∃ c, ex = mkExercise ctx.conv metas (metas.getD i dMeta) i c := by
  intro is
  induction is with
  | nil =>
    intro exs ws h
    injection h with hp
    have hp2 := (Prod.mk.injEq _ _ _ _).mp hp
    rw [← hp2.1, ← hp2.2]
    exact ⟨rfl, rfl, rfl, by intro ex hex; exact absurd hex (List.not_mem_nil ex)⟩
  | cons i is ih =>
    intro exs ws h
    rw [runPages_cons] at h
    cases hg : generateExercisePage ctx d o metas (metas.getD i dMeta) i with
    | error r => rw [hg] at h; cases h
    | ok p =>
      obtain ⟨ex, w⟩ := p
      rw [hg] at h
      cases hrp : runPages ctx d o metas is with
      | error q => obtain ⟨r, ws'⟩ := q; rw [hrp] at h; cases h
      | ok q =>
        obtain ⟨exs', ws'⟩ := q
        rw [hrp] at h
        injection h with hp
        have hp2 := (Prod.mk.injEq _ _ _ _).mp hp
        obtain ⟨⟨c, hc, hex⟩, hw1, _, _⟩ := genPage_ok_fields hg
        obtain ⟨ihn, ihf, ihw, ihm⟩ := ih hrp
        rw [← hp2.1, ← hp2.2]
        refine ⟨?_, ?_, ?_, ?_⟩
        · simp only [List.map_cons, ihn]
          rw [hex]
          rfl
        · simp only [List.map_cons, ihf]
          rw [hex, mkExercise_filename]
        · simp only [List.map_cons, ihw, hw1]
        · intro e he
          rcases List.mem_cons.mp he with rfl | he2
          · exact ⟨i, List.mem_cons_self _ _, c, hex⟩
          · obtain ⟨j, hj, cj, hcj⟩ := ihm e he2
            exact ⟨j, List.mem_cons_of_mem _ hj, cj, hcj⟩

theorem runPages_ok_iff {ctx : GenCtx} {d o : Str} {metas : List ExMeta} :
    ∀ {is : List Nat},
      (∃ p, runPages ctx d o metas is = Except.ok p) ↔
        ∀ i ∈ is, pageOk ctx d o (metas.getD i dMeta) := by
  intro is
  induction is with
  | nil =>
    constructor
    · intro _ i hi; exact absurd hi (List.not_mem_nil i)
    · intro _; exact ⟨([], []), rfl⟩
  | cons i is ih =>
    rw [runPages_cons]
    cases hg : generateExercisePage ctx d o metas (metas.getD i dMeta) i with
    | error r =>
      constructor
      · rintro ⟨p, hp⟩; cases hp
      · intro hall
        have hEx : ∃ p, generateExercisePage ctx d o metas (metas.getD i dMeta) i =
            Except.ok p :=
          genPage_ok_iff.mpr (hall i (List.mem_cons_self _ _))
        obtain ⟨p, hp⟩ := hEx
        rw [hg] at hp; cases hp
    | ok p =>
      obtain ⟨ex, w⟩ := p
      cases hrp : runPages ctx d o metas is with
      | error q =>
        obtain ⟨r, ws'⟩ := q
        constructor
        · rintro ⟨p2, hp2⟩; cases hp2
        · intro hall
          have := ih.mpr (fun j hj => hall j (List.mem_cons_of_mem i hj))
          obtain ⟨p2, hp2⟩ := this
          rw [hrp] at hp2; cases hp2
      | ok q =>
        obtain ⟨exs', ws'⟩ := q
        constructor
        · intro _ j hj
          rcases List.mem_cons.mp hj with rfl | hj2
          · exact genPage_ok_iff.mp ⟨_, hg⟩
          · exact (ih.mp ⟨_, hrp⟩) j hj2
        · intro _; exact ⟨(ex :: exs', w :: ws'), rfl⟩

theorem runPages_error {ctx : GenCtx} {d o : Str} {metas : List ExMeta} :
    ∀ {is : List Nat} {r : Str} {ws : List (Str × Str)},
      runPages ctx d o metas is = Except.error (r, ws) →
      ∃ as k bs, is = as ++ k :: bs ∧
        (∀ i ∈ as, pageOk ctx d o (metas.getD i dMeta)) ∧
        generateExercisePage ctx d o metas (metas.getD k dMeta) k = Except.error r ∧
        ws.map Prod.fst = as.map (fun i => pagePath o (metas.getD i dMeta)) := by
  intro is
  induction is with
  | nil => intro r ws h; cases h
  | cons i is ih =>
    intro r ws h
    rw [runPages_cons] at h
    cases hg : generateExercisePage ctx d o metas (metas.getD i dMeta) i with
    | error r' =>
      rw [hg] at h
      injection h with hp
      have hp2 := (Prod.mk.injEq _ _ _ _).mp hp
      refine ⟨[], i, is, rfl, by intro j hj; exact absurd hj (List.not_mem_nil j),
        by rw [hg, hp2.1], ?_⟩
      rw [← hp2.2]
      rfl
    | ok p =>
      obtain ⟨ex, w⟩ := p
      rw [hg] at h
      cases hrp : runPages ctx d o metas is with
      | error q =>
        obtain ⟨r', ws'⟩ := q
        rw [hrp] at h
        injection h with hp
        have hp2 := (Prod.mk.injEq _ _ _ _).mp hp
        obtain ⟨as, k, bs, his, hok, hbad, hws⟩ := ih hrp
        obtain ⟨_, hw1, _, _⟩ := genPage_ok_fields hg
        refine ⟨i :: as, k, bs, by rw [his]; rfl, ?_, by rw [← hp2.1]; exact hbad, ?_⟩
        · intro j hj
          rcases List.mem_cons.mp hj with rfl | hj2
          · exact genPage_ok_iff.mp ⟨_, hg⟩
          · exact hok j hj2
        · rw [← hp2.2]
          simp only [List.map_cons, hws, hw1]
      | ok q =>
        obtain ⟨exs', ws'⟩ := q
        rw [hrp] at h
        cases h

theorem runPages_first_fail {ctx : GenCtx} {d o : Str} {metas : List ExMeta} :
    ∀ (as : List Nat) (k : Nat) (bs : List Nat) (r : Str),
      (∀ i ∈ as, pageOk ctx d o (metas.getD i dMeta)) →
      generateExercisePage ctx d o metas (metas.getD k dMeta) k = Except.error r →
      ∃ ws, runPages ctx d o metas (as ++ k :: bs) = Except.error (r, ws) ∧
        ws.map Prod.fst = as.map (fun i => pagePath o (metas.getD i dMeta)) := by
  intro as
  induction as with
  | nil =>
    intro k bs r _ hbad
    refine ⟨[], ?_, rfl⟩
    rw [List.nil_append, runPages_cons, hbad]
  | cons i as' ih =>
    intro k bs r hok hbad
    obtain ⟨p, hp⟩ := genPage_ok_iff.mpr (hok i (List.mem_cons_self _ _))
    obtain ⟨ex, w⟩ := p
    obtain ⟨ws', hrun, hws'⟩ := ih k bs r (fun j hj => hok j (List.mem_cons_of_mem i hj)) hbad
    obtain ⟨_, hw1, _, _⟩ := genPage_ok_fields hp
    refine ⟨w :: ws', ?_, ?_⟩
    · rw [show ((i :: as') ++ k :: bs) = i :: (as' ++ k :: bs) from rfl,
        runPages_cons, hp, hrun]
    · simp only [List.map_cons, hws', hw1]

theorem runMain_mkfail (ctx : GenCtx) (d o : Str) (metas : List ExMeta) :
    runMain ctx d o false metas = ⟨[], some o⟩ := by
  unfold runMain
  rw [if_pos rfl]

theorem runMain_pagesfail {ctx : GenCtx} {d o : Str} {metas : List ExMeta}
    {r : Str} {ws : List (Str × Str)}
    (hrp : runPages ctx d o metas (List.range metas.length) = Except.error (r, ws)) :
    runMain ctx d o true metas = ⟨ws, some r⟩ := by
  unfold runMain
  rw [if_neg (by simp), hrp]

theorem runMain_idxfail {ctx : GenCtx} {d o : Str} {metas : List ExMeta}
    {exs : List Exercise} {ws : List (Str × Str)}
    (hrp : runPages ctx d o metas (List.range metas.length) = Except.ok (exs, ws))
    (hidx : ctx.canW (joinPath o (toL "index.html")) = false) :
    runMain ctx d o true metas = ⟨ws, some (joinPath o (toL "index.html"))⟩ := by
  unfold runMain
  rw [if_neg (by simp), hrp]
  show (if ctx.canW (joinPath o (toL "index.html")) = true then _ else _) = _
  rw [if_neg (by simp [hidx])]

theorem runMain_cssfail {ctx : GenCtx} {d o : Str} {metas : List ExMeta}
    {exs : List Exercise} {ws : List (Str × Str)}
    (hrp : runPages ctx d o metas (List.range metas.length) = Except.ok (exs, ws))
    (hidx : ctx.canW (joinPath o (toL "index.html")) = true)
    (hcss : ctx.canW (joinPath o (toL "style.css")) = false) :
    runMain ctx d o true metas =
      ⟨ws ++ [(joinPath o (toL "index.html"), ctx.renderIdx exs)],
       some (joinPath o (toL "style.css"))⟩ := by
  unfold runMain
  rw [if_neg (by simp), hrp]
  show (if ctx.canW (joinPath o (toL "index.html")) = true then _ else _) = _
  rw [if_pos hidx, if_neg (by simp [hcss])]

theorem runMain_success {ctx : GenCtx} {d o : Str} {metas : List ExMeta}
    {exs : List Exercise} {ws : List (Str × Str)}
    (hrp : runPages ctx d o metas (List.range metas.length) = Except.ok (exs, ws))
    (hidx : ctx.canW (joinPath o (toL "index.html")) = true)
    (hcss : ctx.canW (joinPath o (toL "style.css")) = true) :
    runMain ctx d o true metas =
      ⟨ws ++ [(joinPath o (toL "index.html"), ctx.renderIdx exs),
              (joinPath o (toL "style.css"), ctx.css)], none⟩ := by
  unfold runMain
  rw [if_neg (by simp), hrp]
  show (if ctx.canW (joinPath o (toL "index.html")) = true then _ else _) = _
  rw [if_pos hidx, if_pos hcss]

/-- C2: the page composer's navigation: previous is the landing page
filename at the first position and otherwise the preceding descriptor's
output filename; next is absent (empty) at the last position and otherwise
the following descriptor's output filename. -/
theorem page_navigation {ctx : GenCtx} {d o : Str} {metas : List ExMeta}
    {meta : ExMeta} {i : Nat} {ex : Exercise} {w : Str × Str}
    (hi : i < metas.length)
    (h : generateExercisePage ctx d o metas meta i = Except.ok (ex, w)) :
    (ex.prevLink =
      if i = 0 then toL "index.html" else outName (metas.getD (i - 1) dMeta)) ∧
    (ex.nextLink =
      if i = metas.length - 1 then [] else outName (metas.getD (i + 1) dMeta)) := by
  obtain ⟨⟨c, _, hex⟩, _, _, _⟩ := genPage_ok_fields h
  subst hex
  constructor
  · show (if 0 < i then
        trimSuffix ((metas.getD (i - 1) dMeta).filename) (toL ".md") ++ toL ".html"
      else toL "index.html") = _
    by_cases h0 : i = 0
    · subst h0
      rw [if_neg (by omega), if_pos rfl]
    · rw [if_pos (by omega), if_neg h0]
      rfl
  · show (if i < metas.length - 1 then
        trimSuffix ((metas.getD (i + 1) dMeta).filename) (toL ".md") ++ toL ".html"
      else []) = _
    by_cases hl : i = metas.length - 1
    · rw [if_neg (by omega), if_pos hl]
    · rw [if_pos (by omega), if_neg hl]
      rfl

theorem page_navigation_witness :
    ((mkExercise cexCtx.conv cexMetas2 (cexMetas2.getD 1 dMeta) 1 []).prevLink =
      if 1 = 0 then toL "index.html" else outName (cexMetas2.getD (1 - 1) dMeta)) ∧
    ((mkExercise cexCtx.conv cexMetas2 (cexMetas2.getD 1 dMeta) 1 []).nextLink =
      if 1 = cexMetas2.length - 1 then [] else outName (cexMetas2.getD (1 + 1) dMeta)) :=
  @page_navigation cexCtx (toL "e") (toL "w") cexMetas2 (cexMetas2.getD 1 dMeta) 1 _ _
    (by decide) rfl

/-- C3: the exercise list handed to the index template has one entry per
descriptor, in exactly ascending ordinal order, with entry count equal to
descriptor count; no descriptor is repeated or skipped. -/
theorem index_order {ctx : GenCtx} {d o : Str} {metas : List ExMeta}
    {exs : List Exercise} {ws : List (Str × Str)}
    (h : runPages ctx d o metas (List.range metas.length) = Except.ok (exs, ws)) :
    exs.length = metas.length ∧
    exs.map (fun e => e.number) = List.range metas.length ∧
    exs.map (fun e => e.filename) = metas.map outName := by
  obtain ⟨hn, hf, _, _⟩ := runPages_ok h
  refine ⟨?_, hn, ?_⟩
  · have hlen := congrArg List.length hn
    simpa using hlen
  · rw [hf, range_map_getD]

theorem index_order_witness :
    (3 : Nat) = cexMetas3.length ∧
    [0, 1, 2] = List.range cexMetas3.length ∧
    [toL "00-a.html", toL "01-b.html", toL "02-c.html"] = cexMetas3.map outName := by
  obtain ⟨h1, h2, h3⟩ :=
    @index_order cexCtx (toL "e") (toL "w") cexMetas3 _ _ rfl
  exact ⟨by decide, by decide, by decide⟩

/-- C7: every computed previous/next value either names a generated output
filename (an exercise page's output filename or the landing page filename)
or is absent (empty). -/
theorem nav_targets_generated {ctx : GenCtx} {d o : Str} {metas : List ExMeta}
    {exs : List Exercise} {ws : List (Str × Str)}
    (h : runPages ctx d o metas (List.range metas.length) = Except.ok (exs, ws)) :
    ∀ ex ∈ exs,
      (ex.prevLink ∈ (toL "index.html" :: metas.map outName) ∨ ex.prevLink = []) ∧
      (ex.nextLink ∈ (toL "index.html" :: metas.map outName) ∨ ex.nextLink = []) := by
  obtain ⟨_, _, _, hm⟩ := runPages_ok h
  intro ex hex
  obtain ⟨i, hi, c, hex2⟩ := hm ex hex
  have hilt : i < metas.length := List.mem_range.mp hi
  subst hex2
  have hprev : (mkExercise ctx.conv metas (metas.getD i dMeta) i c).prevLink =
      if 0 < i then
        trimSuffix ((metas.getD (i - 1) dMeta).filename) (toL ".md") ++ toL ".html"
      else toL "index.html" := rfl
  have hnext : (mkExercise ctx.conv metas (metas.getD i dMeta) i c).nextLink =
      if i < metas.length - 1 then
        trimSuffix ((metas.getD (i + 1) dMeta).filename) (toL ".md") ++ toL ".html"
      else [] := rfl
  rw [hprev, hnext]
  constructor
  · left
    by_cases h0 : 0 < i
    · rw [if_pos h0]
      exact List.mem_cons_of_mem _
        (List.mem_map_of_mem outName (getD_mem (by omega) dMeta))
    · rw [if_neg h0]
      exact List.mem_cons_self _ _
  · by_cases hl : i < metas.length - 1
    · left
      rw [if_pos hl]
      exact List.mem_cons_of_mem _
        (List.mem_map_of_mem outName (getD_mem (by omega) dMeta))
    · right
      rw [if_neg hl]

theorem nav_targets_generated_witness :
    ((mkExercise cexCtx.conv cexMetas2 (cexMetas2.getD 0 dMeta) 0 []).prevLink ∈
        (toL "index.html" :: cexMetas2.map outName) ∨
      (mkExercise cexCtx.conv cexMetas2 (cexMetas2.getD 0 dMeta) 0 []).prevLink = []) ∧
    ((mkExercise cexCtx.conv cexMetas2 (cexMetas2.getD 0 dMeta) 0 []).nextLink ∈
        (toL "index.html" :: cexMetas2.map outName) ∨
      (mkExercise cexCtx.conv cexMetas2 (cexMetas2.getD 0 dMeta) 0 []).nextLink = []) :=
  @nav_targets_generated cexCtx (toL "e") (toL "w") cexMetas2 _ _ rfl
    (mkExercise cexCtx.conv cexMetas2 (cexMetas2.getD 0 dMeta) 0 []) (by decide)

/-- C4 counterexample: on a fully successful one-descriptor run the written
files are the exercise page, the index page, and also the stylesheet, so the
written set is not  (index filename) union (descriptor output filenames) :
the stylesheet is an extra member. -/
theorem completeness_counterexample :
    (runMain cexCtx (toL "e") (toL "w") true cexMetas1).writes.map Prod.fst =
      [joinPath (toL "w") (outName (cexMetas1.getD 0 dMeta)),
       joinPath (toL "w") (toL "index.html"),
       joinPath (toL "w") (toL "style.css")] ∧
    ¬(∀ f ∈ (runMain cexCtx (toL "e") (toL "w") true cexMetas1).writes.map Prod.fst,
        f = joinPath (toL "w") (toL "index.html") ∨
          f ∈ cexMetas1.map (pagePath (toL "w"))) := by
  exact ⟨by decide, by decide⟩

/-- C4 amended: after a fully successful run the written filenames are
exactly the descriptor output filenames plus the index page plus the
stylesheet, each exactly once and nothing else. -/
theorem run_completeness {ctx : GenCtx} {d o : Str} {mk : Bool} {metas : List ExMeta}
    (h : (runMain ctx d o mk metas).failedAt = none) :
    (runMain ctx d o mk metas).writes.map Prod.fst =
      metas.map (pagePath o) ++
        [joinPath o (toL "index.html"), joinPath o (toL "style.css")] := by
  cases mk with
  | false =>
    rw [runMain_mkfail] at h
    cases h
  | true =>
    cases hrp : runPages ctx d o metas (List.range metas.length) with
    | error q =>
      obtain ⟨r, ws⟩ := q
      rw [runMain_pagesfail hrp] at h
      cases h
    | ok p =>
      obtain ⟨exs, ws⟩ := p
      by_cases hidx : ctx.canW (joinPath o (toL "index.html")) = true
      case neg =>
        rw [runMain_idxfail hrp (by simpa using hidx)] at h
        cases h
      by_cases hcss : ctx.canW (joinPath o (toL "style.css")) = true
      case neg =>
        rw [runMain_cssfail hrp hidx (by simpa using hcss)] at h
        cases h
      rw [runMain_success hrp hidx hcss]
      obtain ⟨_, _, hws, _⟩ := runPages_ok hrp
      show (ws ++ [(joinPath o (toL "index.html"), ctx.renderIdx exs),
                   (joinPath o (toL "style.css"), ctx.css)]).map Prod.fst = _
      rw [List.map_append, hws, range_map_getD]
      rfl

theorem run_completeness_witness :
    (runMain cexCtx (toL "e") (toL "w") true cexMetas1).writes.map Prod.fst =
      cexMetas1.map (pagePath (toL "w")) ++
        [joinPath (toL "w") (toL "index.html"), joinPath (toL "w") (toL "style.css")] :=
  @run_completeness cexCtx (toL "e") (toL "w") true cexMetas1 (by decide)

/-- C8: the pipeline is deterministic: two runs on identical inputs (file
system, converter, writability, renderers, directories, descriptor list)
produce identical write sequences, hence byte-identical file contents. -/
theorem run_deterministic (ctx ctx' : GenCtx) (d d' o o' : Str) (mk mk' : Bool)
    (metas metas' : List ExMeta) (h1 : ctx = ctx') (h2 : d = d') (h3 : o = o')
    (h4 : mk = mk') (h5 : metas = metas') :
    runMain ctx d o mk metas = runMain ctx' d' o' mk' metas' := by
  subst h1; subst h2; subst h3; subst h4; subst h5
  rfl

theorem run_deterministic_witness :
    runMain cexCtx (toL "e") (toL "w") true cexMetas1 =
      runMain cexCtx (toL "e") (toL "w") true cexMetas1 :=
  run_deterministic cexCtx cexCtx (toL "e") (toL "e") (toL "w") (toL "w") true true
    cexMetas1 cexMetas1 rfl rfl rfl rfl rfl

theorem range_decomp {n : Nat} {as : List Nat} {k : Nat} {bs : List Nat}
    (h : List.range n = as ++ k :: bs) :
    as = List.range as.length ∧ as.length ≤ n := by
  have hlen : n = as.length + (bs.length + 1) := by
    have h1 := congrArg List.length h
    simpa [List.length_append] using h1
  have hle : as.length ≤ n := by omega
  refine ⟨?_, hle⟩
  have h2 : (List.range n).take as.length = as := by rw [h, List.take_left]
  have h3 : (List.range n).take as.length = List.range as.length := by
    rw [List.take_range]
    congr 1
    omega
  exact h2.symm.trans h3

theorem range_split {n k : Nat} (h : k < n) :
    ∃ bs, List.range n = List.range k ++ k :: bs := by
  obtain ⟨m, rfl⟩ : ∃ m, n = k + (m + 1) := ⟨n - k - 1, by omega⟩
  refine ⟨(List.range m).map (fun j => k + (j + 1)), ?_⟩
  rw [List.range_add, List.range_succ_eq_map]
  simp only [List.map_cons, List.map_map, Nat.add_zero]
  rfl

/-- C6: the run terminates at the first failing stage, reporting the failing
resource, with no later file written; the success summary appears exactly
when the directory creation, every page, the index, and the stylesheet all
succeeded; a missing source aborts before any file of that or a later
descriptor is written. -/
theorem run_failfast (ctx : GenCtx) (d o : Str) (mk : Bool) (metas : List ExMeta) :
    ((runMain ctx d o mk metas).failedAt = none ↔
      (mk = true ∧
       (∀ i, i < metas.length → pageOk ctx d o (metas.getD i dMeta)) ∧
       ctx.canW (joinPath o (toL "index.html")) = true ∧
       ctx.canW (joinPath o (toL "style.css")) = true)) ∧
    (∀ r, (runMain ctx d o mk metas).failedAt = some r →
      ∃ rest, (runMain ctx d o mk metas).writes.map Prod.fst ++ rest =
        metas.map (pagePath o) ++
          [joinPath o (toL "index.html"), joinPath o (toL "style.css")]) ∧
    (∀ k, k < metas.length → mk = true →
      (∀ j, j < k → pageOk ctx d o (metas.getD j dMeta)) →
      ctx.fs (srcPath d (metas.getD k dMeta)) = none →
      (runMain ctx d o mk metas).failedAt = some (srcPath d (metas.getD k dMeta)) ∧
      (runMain ctx d o mk metas).writes.map Prod.fst =
        (metas.take k).map (pagePath o)) := by
  refine ⟨⟨?_, ?_⟩, ?_, ?_⟩
  · intro h
    cases mk with
    | false => rw [runMain_mkfail] at h; cases h
    | true =>
      cases hrp : runPages ctx d o metas (List.range metas.length) with
      | error q =>
        obtain ⟨r, ws⟩ := q
        rw [runMain_pagesfail hrp] at h
        cases h
      | ok p =>
        obtain ⟨exs, ws⟩ := p
        by_cases hidx : ctx.canW (joinPath o (toL "index.html")) = true
        case neg =>
          rw [runMain_idxfail hrp (by simpa using hidx)] at h
          cases h
        by_cases hcss : ctx.canW (joinPath o (toL "style.css")) = true
        case neg =>
          rw [runMain_cssfail hrp hidx (by simpa using hcss)] at h
          cases h
        exact ⟨rfl, fun i hi =>
          runPages_ok_iff.mp ⟨_, hrp⟩ i (List.mem_range.mpr hi), hidx, hcss⟩
  · rintro ⟨hmk, hall, hidx, hcss⟩
    subst hmk
    obtain ⟨p, hrp⟩ := runPages_ok_iff.mpr (fun i hi => hall i (List.mem_range.mp hi))
    obtain ⟨exs, ws⟩ := p
    rw [runMain_success hrp hidx hcss]
  · intro r hr
    cases mk with
    | false =>
      rw [runMain_mkfail]
      exact ⟨metas.map (pagePath o) ++
        [joinPath o (toL "index.html"), joinPath o (toL "style.css")], rfl⟩
    | true =>
      cases hrp : runPages ctx d o metas (List.range metas.length) with
      | error q =>
        obtain ⟨r', ws⟩ := q
        rw [runMain_pagesfail hrp]
        obtain ⟨as, k, bs, his, hok, hbad, hws⟩ := runPages_error hrp
        obtain ⟨hasr, haslen⟩ := range_decomp his
        have haslen' : as.length ≤ metas.length := by
          simpa using haslen
        have hws2 : ws.map Prod.fst = (metas.take as.length).map (pagePath o) := by
          rw [hws, ← range_take_map metas (pagePath o) as.length haslen']
          conv_lhs => rw [hasr]
        refine ⟨(metas.drop as.length).map (pagePath o) ++
          [joinPath o (toL "index.html"), joinPath o (toL "style.css")], ?_⟩
        show ws.map Prod.fst ++ _ = _
        rw [hws2, ← List.append_assoc, ← List.map_append, List.take_append_drop]
      | ok p =>
        obtain ⟨exs, ws⟩ := p
        obtain ⟨_, _, hws, _⟩ := runPages_ok hrp
        have hws2 : ws.map Prod.fst = metas.map (pagePath o) := by
          rw [hws, range_map_getD]
        by_cases hidx : ctx.canW (joinPath o (toL "index.html")) = true
        case neg =>
          rw [runMain_idxfail hrp (by simpa using hidx)]
          refine ⟨[joinPath o (toL "index.html"), joinPath o (toL "style.css")], ?_⟩
          show ws.map Prod.fst ++ _ = _
          rw [hws2]
        by_cases hcss : ctx.canW (joinPath o (toL "style.css")) = true
        case neg =>
          rw [runMain_cssfail hrp hidx (by simpa using hcss)]
          refine ⟨[joinPath o (toL "style.css")], ?_⟩
          show ((ws ++ [(joinPath o (toL "index.html"), ctx.renderIdx exs)]).map
            Prod.fst) ++ _ = _
          rw [List.map_append, hws2]
          simp [List.append_assoc]
        rw [runMain_success hrp hidx hcss] at hr
        cases hr
  · intro k hk hmk hprev hnone
    subst hmk
    obtain ⟨bs, hsplit⟩ := range_split hk
    obtain ⟨ws, hrun, hwsmap⟩ := runPages_first_fail (List.range k) k bs
      (srcPath d (metas.getD k dMeta))
      (fun j hj => hprev j (List.mem_range.mp hj))
      (@genPage_error_src ctx d o metas (metas.getD k dMeta) k hnone)
    rw [← hsplit] at hrun
    rw [runMain_pagesfail hrun]
    refine ⟨rfl, ?_⟩
    show ws.map Prod.fst = _
    rw [hwsmap, range_take_map metas (pagePath o) k (by omega)]

theorem run_failfast_witness :
    (runMain cexCtxMissing (toL "e") (toL "w") true cexMetas2).failedAt =
        some (srcPath (toL "e") (cexMetas2.getD 1 dMeta)) ∧
    (runMain cexCtxMissing (toL "e") (toL "w") true cexMetas2).writes.map Prod.fst =
        (cexMetas2.take 1).map (pagePath (toL "w")) :=
  (run_failfast cexCtxMissing (toL "e") (toL "w") true cexMetas2).2.2 1
    (by decide) rfl (by decide) (by decide)

theorem readme_containment_overrides_witness :
    fixRelativeLinks (toL "href=\"../exercises/" ++ toL "00-README.md" ++ toL ".md\"") =
      toL "href=\"index.html\"" :=
  readme_containment_overrides (toL "00-README.md") (by decide) (by decide) (by decide)

theorem sibling_rewrite_unconditional_witness :
    fixRelativeLinks (hrefQuote ++
        (('9' :: '9' :: '-' :: (toL "nonexistent" ++ toL ".md")) ++ '"' :: [])) =
      hrefQuote ++ (('9' :: '9' :: '-' :: toL "nonexistent") ++ toL ".html" ++ '"' :: []) :=
  sibling_rewrite_unconditional '9' '9' (toL "nonexistent")
    (by decide) (by decide) (by decide) (by decide)
